import Mathlib

/-!
Verification of the numeric/value runtime of PC-BASIC (`values.py`).

The embedding translates the functions of `pcbasic/basic/values.py` into Lean.
The external floating-point library (`fp`, Microsoft Binary Format pack/unpack
and arithmetic) is not part of the source tree under verification; per the
specification it is consumed through a narrow contract (pack/unpack lossless,
exact integer embedding, scaling by ten, rounding, per-type maximum-magnitude
constants).  Wherever a definition models that external contract rather than
source code, its doc comment says so explicitly.
-/

namespace PCBasic

/-- Error codes of the `error` module as used by `values.py`
(`TYPE_MISMATCH`, `OVERFLOW`, `DIVISION_BY_ZERO`, `IFC`, `STX`). -/
inductive Err where
  | typeMismatch
  | overflow
  | divisionByZero
  | ifc
  | stx
  deriving DecidableEq, Repr

/-- Modelled from the spec: the external floating-point library's unpacked
working float (sign, mantissa, biased exponent).  The narrow contract of the
spec (pack/unpack lossless, exact integer embedding, multiply/divide by ten)
is modelled by an exact rational magnitude `mag` with an explicit sign flag
`neg` and a precision tag `isDouble` (4-byte Single vs 8-byte Double). -/
structure Flt where
  isDouble : Bool
  neg : Bool
  mag : ℚ
  deriving DecidableEq, Repr

/-- Signed value carried by a working float. -/
def Flt.val (f : Flt) : ℚ := if f.neg then -f.mag else f.mag

/-- Build a working float of the given precision holding the exact value `q`. -/
def Flt.ofVal (d : Bool) (q : ℚ) : Flt := ⟨d, decide (q < 0), |q|⟩

/-- Modelled from the spec: `fp.Single.from_int` / `fp.Double.from_int`,
the exact integer embedding of the floating library. -/
def Flt.fromInt (d : Bool) (n : ℤ) : Flt := Flt.ofVal d (n : ℚ)

/-- Modelled from the spec: the magnitude of `fp.Single.max`, the per-type
maximum-magnitude constant of the floating library (all-ones 24-bit mantissa,
maximal exponent of the 4-byte Microsoft Binary Format). -/
def Flt.singleMaxMag : ℚ := 2 ^ 127 - 2 ^ 103

/-- Modelled from the spec: `fp.Single.max`, the maximum-magnitude Single. -/
def Flt.singleMax : Flt := ⟨false, false, Flt.singleMaxMag⟩

/-- Modelled from the spec: `round_to_int` of the floating library rounds to
the nearest integer (the spec does not fix the tie convention; the model uses
round-half-up). -/
def Flt.roundToInt (f : Flt) : ℤ := round f.val

/-- Modelled from the spec: in-place float addition `iadd`; the result keeps
the precision class of the left operand, the value is exact in this model. -/
def Flt.iadd (f g : Flt) : Flt := Flt.ofVal f.isDouble (f.val + g.val)

/-- Modelled from the spec: `round_to_single` narrows a Double to a Single
(exact in this model, which carries exact rationals). -/
def Flt.roundToSingle (f : Flt) : Flt := { f with isDouble := false }

/-- Decimal precision attribute of the floating types (`fp.Single.digits = 7`,
`fp.Double.digits = 16`), modelled from the spec's per-type digit budgets. -/
def Flt.digitsF (f : Flt) : ℤ := if f.isDouble then 16 else 7

/-- BASIC value: tagged payload as built by `values.py`.
`vInt` carries the two bytes of the little-endian two's-complement Integer;
`vFlt` carries a packed float (pack/unpack being lossless per the spec, the
packed form is identified with the working float); `vStr` carries the
character bytes owned by the string space. -/
inductive Value where
  | vInt (b0 b1 : ℕ)
  | vFlt (f : Flt)
  | vStr (s : List ℕ)
  deriving DecidableEq, Repr

/-- `integer_to_int` (values.py 89-101): convert the two stored bytes of a
BASIC Integer to a Python int, signed or unsigned. -/
def integerToInt (b0 b1 : ℕ) (unsigned : Bool) : ℤ :=
  if unsigned then ((0x100 * b1 + b0 : ℕ) : ℤ)
  else
    let value : ℤ := ((0x100 * (b1 &&& 0x7f) + b0 : ℕ) : ℤ)
    if b1 &&& 0x80 = 0x80 then -0x8000 + value else value

/-- Low byte stored by `int_to_integer` (negative values stored as their
0x10000 complement). -/
def encLo (n : ℤ) : ℕ := (if n < 0 then 0x10000 + n else n).toNat % 0x100

/-- High byte stored by `int_to_integer`. -/
def encHi (n : ℤ) : ℕ := (if n < 0 then 0x10000 + n else n).toNat / 0x100

/-- The byte encoding produced by `int_to_integer` for an in-range int
(negative values stored as their 0x10000 complement, low byte first). -/
def encInt (n : ℤ) : Value := .vInt (encLo n) (encHi n)

/-- `int_to_integer` (values.py 80-87): range-check against the signed or
unsigned 16-bit range, raise `OVERFLOW` outside it, else store two bytes. -/
def intToInteger (n : ℤ) (unsigned : Bool) : Except Err Value :=
  let maxint : ℤ := if unsigned then 0xffff else 0x7fff
  if n > maxint ∨ n < -0x8000 then .error .overflow
  else .ok (encInt n)

/-- Signed int read back from an Integer value (helper for `to_int`). -/
def intValue : Value → ℤ
  | .vInt b0 b1 => integerToInt b0 b1 false
  | _ => 0

instance {ε α : Type} [DecidableEq ε] [DecidableEq α] : DecidableEq (Except ε α)
  | .error e, .error f =>
    if h : e = f then .isTrue (by rw [h]) else .isFalse (fun hc => h (Except.error.inj hc))
  | .error _, .ok _ => .isFalse Except.noConfusion
  | .ok _, .error _ => .isFalse Except.noConfusion
  | .ok a, .ok b =>
    if h : a = b then .isTrue (by rw [h]) else .isFalse (fun hc => h (Except.ok.inj hc))

/-- Python exception classes intercepted by `float_safe` /
`MathErrorHandler.handle`: `ValueError` (math domain), `OverflowError` and
`ZeroDivisionError` (both may carry a float payload to return saturated). -/
inductive PyExc where
  | valueError
  | overflowError (payload : Option Flt)
  | zeroDivisionError (payload : Flt)
  deriving DecidableEq, Repr

/-- The error code the handler assigns to each exception class
(values.py 134-140): domain error to `IFC`, overflow to `OVERFLOW`,
zero division to `DIVISION_BY_ZERO`. -/
def excCode : PyExc → Err
  | .valueError => .ifc
  | .overflowError _ => .overflow
  | .zeroDivisionError _ => .divisionByZero

/-- `MathErrorHandler.soft_types` (values.py 121). -/
def softTypes : List Err := [.overflow, .divisionByZero]

/-- `MathErrorHandler.handle` (values.py 132-154).  `doRaise` is the
`_do_raise` flag, `hasScreen` is whether a display surface is attached.
On the soft path the diagnostic written to the screen is modelled by the
`Bool` component of the result (`true` means a message was printed); the
returned value is the packed payload float if one was attached to the
exception, else the Single maximum. -/
def handleExc (doRaise hasScreen : Bool) (e : PyExc) : Except Err (Value × Bool) :=
  let code := excCode e
  if doRaise ∨ ¬hasScreen ∨ code ∉ softTypes then .error code
  else
    let v : Value := match e with
      | .overflowError (some p) => .vFlt p
      | .zeroDivisionError p => .vFlt p
      | _ => .vFlt Flt.singleMax
    .ok (v, true)

/-- `Values.to_integer` (values.py 223-238): Integers pass through, floats
are rounded to int and range-checked against the signed or unsigned 16-bit
range (`maxint`) below by `-0x8000`, strings are a type mismatch. -/
def toInteger : Value → Bool → Except Err Value
  | .vInt b0 b1, _ => .ok (.vInt b0 b1)
  | .vFlt f, unsigned =>
    let maxint : ℤ := if unsigned then 0xffff else 0x7fff
    let val := f.roundToInt
    if val > maxint ∨ val < -0x8000 then .error .overflow
    else intToInteger val true
  | .vStr _, _ => .error .typeMismatch

/-- `Values.to_int` (values.py 195-197): round and convert to a native int. -/
def toInt (v : Value) : Except Err ℤ :=
  (toInteger v false).map intValue

/-- `Values.to_single` (values.py 240-252). -/
def toSingle : Value → Except Err Value
  | .vFlt f => if f.isDouble then .ok (.vFlt f.roundToSingle) else .ok (.vFlt f)
  | .vInt b0 b1 => .ok (.vFlt (Flt.fromInt false (integerToInt b0 b1 false)))
  | .vStr _ => .error .typeMismatch

/-- `Values.to_double` (values.py 254-266); widening a Single prepends four
zero bytes, which is the exact widening of the spec's contract. -/
def toDouble : Value → Except Err Value
  | .vFlt f => if f.isDouble then .ok (.vFlt f) else .ok (.vFlt { f with isDouble := true })
  | .vInt b0 b1 => .ok (.vFlt (Flt.fromInt true (integerToInt b0 b1 false)))
  | .vStr _ => .error .typeMismatch

/-- Type character of a value (`'%'`, `'!'`, `'#'`, `'$'`). -/
def typeChar : Value → Char
  | .vInt _ _ => '%'
  | .vFlt f => if f.isDouble then '#' else '!'
  | .vStr _ => '$'

/-- `Values.to_most_precise` (values.py 275-285). -/
def toMostPrecise (l r : Value) : Except Err (Value × Value) :=
  if typeChar l = '#' ∨ typeChar r = '#' then do
    let a ← toDouble l
    let b ← toDouble r
    .ok (a, b)
  else if typeChar l = '!' ∨ typeChar r = '!' then do
    let a ← toSingle l
    let b ← toSingle r
    .ok (a, b)
  else if typeChar l = '%' ∨ typeChar r = '%' then do
    let a ← toInteger l false
    let b ← toInteger r false
    .ok (a, b)
  else .error .typeMismatch

/-- `Values.add` (values.py 387-396): promote to the most precise type;
floats delegate to the library's `iadd`; two Integers are added as unbounded
native ints and packed as a Single to avoid wrapping on integer overflow. -/
def add (l r : Value) : Except Err Value := do
  let (a, b) ← toMostPrecise l r
  match a, b with
  | .vFlt f, .vFlt g => .ok (.vFlt (f.iadd g))
  | .vInt a0 a1, .vInt b0 b1 =>
    .ok (.vFlt (Flt.fromInt false (integerToInt a0 a1 false + integerToInt b0 b1 false)))
  | _, _ => .error .typeMismatch

/-- `Values.negate` (values.py 417-429): Integers negate exactly, promoting
only `-(-32768) = 32768` to Single; floats flip the sign bit of the packed
bytes; strings pass through. -/
def negate : Value → Except Err Value
  | .vInt b0 b1 =>
    let val := -(integerToInt b0 b1 false)
    if val = 32768 then .ok (.vFlt (Flt.fromInt false val))
    else intToInteger val false
  | .vFlt f => .ok (.vFlt { f with neg := !f.neg })
  | .vStr s => .ok (.vStr s)

/-- `Values.subtract` (values.py 398-401): `left + (-right)`. -/
def subtract (l r : Value) : Except Err Value := do
  let nr ← negate r
  add l nr

/-- `Values.divide_int` (values.py 458-469), with the `float_safe` wrapper and
`MathErrorHandler` applied: on divisor zero a `ZeroDivisionError` carrying the
Single maximum with the dividend's sign is raised and handled; otherwise
truncated integer division (same signs use Python floor division directly,
mixed signs negate the quotient of the absolute values). -/
def divideInt (doRaise hasScreen : Bool) (l r : Value) : Except Err (Value × Bool) := do
  let dividend ← toInt l
  let divisor ← toInt r
  if divisor = 0 then
    handleExc doRaise hasScreen (.zeroDivisionError ⟨false, decide (dividend < 0), Flt.singleMaxMag⟩)
  else
    let q := if (0 ≤ dividend) = (0 ≤ divisor) then Int.fdiv dividend divisor
             else -(Int.fdiv |dividend| |divisor|)
    let v ← intToInteger q false
    .ok (v, false)

/-- `Values.mod` (values.py 471-482), with the `float_safe` wrapper and
`MathErrorHandler` applied: divisor read first; on divisor zero as in
`divide_int`; otherwise Python's floor remainder, with the divisor subtracted
whenever the dividend is negative or the remainder is negative. -/
def modOp (doRaise hasScreen : Bool) (l r : Value) : Except Err (Value × Bool) := do
  let divisor ← toInt r
  let dividend ← toInt l
  if divisor = 0 then
    handleExc doRaise hasScreen (.zeroDivisionError ⟨false, decide (dividend < 0), Flt.singleMaxMag⟩)
  else
    let m := Int.fmod dividend divisor
    let m := if dividend < 0 ∨ m < 0 then m - divisor else m
    let v ← intToInteger m false
    .ok (v, false)

/-- The byte-wise comparison loop of `Values.bool_gt` for strings
(values.py 544-561), after the operands' character bytes have been copied
out of the string space: scan for the first differing byte; if one string
is a prefix of the other, the longer one is the greater. -/
def boolGtStr : List ℕ → List ℕ → Bool
  | x :: xs, y :: ys =>
    if x > y then true
    else if x < y then false
    else boolGtStr xs ys
  | _ :: _, [] => true
  | [], _ => false

/-- The string case of `Values._bool_eq` (values.py 532-536): equality of the
copied character bytes. -/
def boolEqStr : List ℕ → List ℕ → Bool
  | [], [] => true
  | x :: xs, y :: ys => x = y && boolEqStr xs ys
  | _, _ => false

/-- Lexicographic byte order as the claim words it: the smaller string is
decided at the first differing byte position, and a proper prefix is smaller
than its extension. -/
def claimLexLt : List ℕ → List ℕ → Prop
  | [], [] => False
  | [], _ :: _ => True
  | _ :: _, [] => False
  | x :: xs, y :: ys => x < y ∨ (x = y ∧ claimLexLt xs ys)

instance claimLexLt.dec : ∀ a b : List ℕ, Decidable (claimLexLt a b)
  | [], [] => by unfold claimLexLt; exact inferInstance
  | [], _ :: _ => by unfold claimLexLt; exact inferInstance
  | _ :: _, [] => by unfold claimLexLt; exact inferInstance
  | x :: xs, y :: ys => by
    unfold claimLexLt
    have := claimLexLt.dec xs ys
    exact inferInstance

/-! ### Number tokenizer (`_tokenise_dec` and `_str_to_float`) -/

/-- `number_whitespace` (values.py 1104): space, tab and line feed count as
whitespace inside numbers. -/
def numWS : List Char := [' ', '\t', '\n']

/-- ASCII separator characters that force the literal to zero
(values.py 786). -/
def sepChars : List Char := ['\x1c', '\x1d', '\x1f']

/-- Python's `str.upper` on a single ASCII character. -/
def upperCh (c : Char) : Char :=
  if 'a' ≤ c ∧ c ≤ 'z' then Char.ofNat (c.toNat - 32) else c

/-- ASCII digit test (`string.digits` membership). -/
def isDigitCh (c : Char) : Bool := decide ('0' ≤ c ∧ c ≤ '9')

/-- Accumulation state of `_tokenise_dec`: the collected word and the
`have_exp` / `have_point` / `kill` flags. -/
structure AccSt where
  word : List Char
  hexp : Bool
  hpt : Bool
  kill : Bool
  deriving DecidableEq, Repr

/-- The accumulation loop of `_tokenise_dec` (values.py 782-818), reading
characters uppercased: separators set the kill flag; one decimal point is
accepted before an exponent marker; `E`/`D` switches to exponent mode unless
`E` is followed by `L` or `Q`; a sign is accepted first or right after a
marker; digits and whitespace accumulate; `!`/`#` end accumulation outside an
exponent; anything else (including `%`, which is swallowed) ends it. -/
def accLoop : List Char → AccSt → AccSt
  | [], st => st
  | c0 :: rest, st =>
    let c := upperCh c0
    if c ∈ sepChars then accLoop rest { st with kill := true }
    else if c = '.' ∧ ¬st.hpt ∧ ¬st.hexp then
      accLoop rest { st with word := st.word ++ ['.'], hpt := true }
    else if (c = 'E' ∨ c = 'D') ∧ ¬st.hexp then
      if c = 'E' ∧ (upperCh (rest.headD '\x00') = 'L' ∨ upperCh (rest.headD '\x00') = 'Q')
      then st
      else accLoop rest { st with word := st.word ++ [c], hexp := true }
    else if (c = '+' ∨ c = '-') ∧
        (st.word = [] ∨ st.word.getLastD '\x00' = 'E' ∨ st.word.getLastD '\x00' = 'D') then
      accLoop rest { st with word := st.word ++ [c] }
    else if isDigitCh c then accLoop rest { st with word := st.word ++ [c] }
    else if c ∈ numWS then accLoop rest { st with word := st.word ++ [c] }
    else if (c = '!' ∨ c = '#') ∧ ¬st.hexp then { st with word := st.word ++ [c] }
    else st

/-- The clean-up of the accumulated word (values.py 819-831): a separator
kill yields "0", then trailing whitespace is trimmed and all internal
whitespace removed. -/
def finishWord (word : List Char) (kill : Bool) : List Char :=
  let w := if kill then ['0'] else word
  let w := (w.reverse.dropWhile (· ∈ numWS)).reverse
  w.filter (· ∉ numWS)

/-- Value of a plain digit string. -/
def digitsVal (ds : List Char) : ℤ :=
  ds.foldl (fun a c => 10 * a + ((c.toNat : ℤ) - 48)) 0

/-- `str_to_int` (values.py 1008-1013): Python's `int(s)` - an optional sign
followed by at least one digit - with zero for malformed input. -/
def strToInt (w : List Char) : ℤ :=
  match w with
  | [] => 0
  | c :: rest =>
    let p : ℤ × List Char :=
      if c = '+' then (1, rest) else if c = '-' then (-1, rest) else (1, w)
    if p.2 ≠ [] ∧ p.2.all isDigitCh then p.1 * digitsVal p.2 else 0

/-- Parser state of `_str_to_float` (values.py 886-890). -/
structure SFSt where
  foundSign : Bool
  foundPoint : Bool
  foundExp : Bool
  foundExpSign : Bool
  expNeg : Bool
  neg : Bool
  exp10 : ℤ
  exponent : ℤ
  mantissa : ℤ
  digits : ℕ
  zeros : ℕ
  isDouble : Bool
  isSingle : Bool
  deriving DecidableEq, Repr

/-- Initial parser state of `_str_to_float`. -/
def SFSt.init : SFSt := ⟨false, false, false, false, false, false, 0, 0, 0, 0, 0, false, false⟩

/-- Mantissa-digit step of `_str_to_float` (values.py 904-916): extend the
mantissa, track the decimal exponent past the point, and count precision
digits and the trailing run of post-point zeros once the mantissa is
nonzero. -/
def digitStep (st : SFSt) (c : Char) : SFSt :=
  let mantissa := st.mantissa * 10 + ((c.toNat : ℤ) - 48)
  let exp10 := if st.foundPoint then st.exp10 - 1 else st.exp10
  if mantissa ≠ 0 then
    { st with
      mantissa := mantissa
      exp10 := exp10
      digits := st.digits + 1
      zeros := if st.foundPoint ∧ c = '0' then st.zeros + 1 else 0 }
  else { st with mantissa := mantissa, exp10 := exp10 }

/-- Exponent-digit step of `_str_to_float` (values.py 942-945). -/
def expStep (st : SFSt) (c : Char) : SFSt :=
  { st with exponent := st.exponent * 10 + ((c.toNat : ℤ) - 48) }

/-- The character loop of `_str_to_float` (values.py 891-949); whitespace is
skipped throughout, the first non-space character fixes the sign, mantissa
digits and the decimal point are parsed until an exponent marker, `!`/`#`
force the precision and stop, and exponent sign and digits follow a marker;
an unexpected character stops the scan (`allow_nonnum`). -/
def sfLoop : List Char → SFSt → SFSt
  | [], st => st
  | c :: r, st0 =>
    if c ∈ numWS then sfLoop r st0
    else
      let st := if st0.foundSign then st0 else { st0 with foundSign := true }
      if ¬st0.foundSign ∧ (c = '+' ∨ c = '-') then
        sfLoop r { st with neg := c = '-' }
      else if ¬st.foundExp then
        if isDigitCh c then sfLoop r (digitStep st c)
        else if c = '.' then sfLoop r { st with foundPoint := true }
        else if upperCh c = 'D' ∨ upperCh c = 'E' then
          sfLoop r { st with foundExp := true, isDouble := upperCh c = 'D' }
        else if c = '!' then { st with isSingle := true }
        else if c = '#' then { st with isDouble := true }
        else st
      else if ¬st.foundExpSign then
        let st1 := { st with foundExpSign := true }
        if c = '+' ∨ c = '-' then sfLoop r { st1 with expNeg := c = '-' }
        else if isDigitCh c then sfLoop r (expStep st1 c)
        else st1
      else if isDigitCh c then sfLoop r (expStep st c)
      else st

/-- Modelled from the spec: `_float_from_exp10` (values.py 959-973) builds a
float from the integer mantissa and applies the decimal exponent through the
library's multiply/divide-by-ten; in the exact-rational model the result is
exactly `mantissa * 10 ^ exp10` with the given sign and precision. -/
def floatFromExp10 (neg : Bool) (mantissa : ℤ) (exp10 : ℤ) (isDouble : Bool) : Flt :=
  ⟨isDouble, neg,
    if exp10 < 0 then (mantissa : ℚ) / 10 ^ (-exp10).toNat
    else (mantissa : ℚ) * 10 ^ exp10.toNat⟩

/-- `Values._str_to_float` (values.py 884-957): scan the text, apply the
exponent sign, promote to Double when more than seven significant digits
were given and no `!` forced Single, then build the float. -/
def strToFloat (s : List Char) : Flt :=
  let st := sfLoop s SFSt.init
  let exp10 := if st.expNeg then st.exp10 - st.exponent else st.exp10 + st.exponent
  let isDouble := if st.digits - st.zeros > 7 ∧ ¬st.isSingle then true else st.isDouble
  floatFromExp10 st.neg st.mantissa exp10 isDouble

/-- Number-literal tokens written by `_tokenise_dec` (values.py 833-849). -/
inductive NumTok where
  | compact (code : ℕ)
  | byteTok (v : ℕ)
  | intTok (b0 b1 : ℕ)
  | singleTok (f : Flt)
  | doubleTok (f : Flt)
  deriving DecidableEq, Repr

/-- The token-selection stage of `_tokenise_dec` (values.py 832-849): a bare
digit gives the compact token; otherwise, with no exponent, point or type
suffix and a value in signed 16-bit range, a one-byte token for [0, 255] or
the two-byte integer token; otherwise the float path, Single or Double by
the packed byte length. -/
def emitDec (word : List Char) (hexp hpt : Bool) : NumTok :=
  if word.length = 1 ∧ word.all isDigitCh then
    .compact (0x11 + (strToInt word).toNat)
  else if ¬(hexp ∨ hpt ∨ word.getLastD '\x00' = '!' ∨ word.getLastD '\x00' = '#') ∧
      strToInt word ≤ 0x7fff ∧ -0x8000 ≤ strToInt word then
    if strToInt word ≤ 0xff ∧ 0 ≤ strToInt word then .byteTok (strToInt word).toNat
    else .intTok (encLo (strToInt word)) (encHi (strToInt word))
  else
    let f := strToFloat word
    if f.isDouble then .doubleTok f else .singleTok f

/-- The cleaned-up literal text a given input accumulates to. -/
def decWord (input : List Char) : List Char :=
  let r := accLoop input ⟨[], false, false, false⟩
  finishWord r.word r.kill

/-- `_tokenise_dec` (values.py 776-849) as a whole: accumulate, clean up,
emit. -/
def tokeniseDec (input : List Char) : NumTok :=
  let r := accLoop input ⟨[], false, false, false⟩
  emitDec (finishWord r.word r.kill) r.hexp r.hpt

/-- The characters on which `tokenise_number` dispatches to `_tokenise_dec`
(values.py 770): digits, point and signs. -/
def dispatchChars : List Char :=
  ['0', '1', '2', '3', '4', '5', '6', '7', '8', '9', '.', '+', '-']

/-- Token kinds, for stating the claim's selection rule. -/
inductive TokKind where
  | compactK
  | byteK
  | intK
  | singleK
  | doubleK
  deriving DecidableEq, Repr

/-- Kind of an emitted token. -/
def kindOf : NumTok → TokKind
  | .compact _ => .compactK
  | .byteTok _ => .byteK
  | .intTok _ _ => .intK
  | .singleTok _ => .singleK
  | .doubleTok _ => .doubleK

/-- Claim-side helper: the digit occurrences of a literal's mantissa text,
each tagged with whether it stands after the decimal point. -/
def digitsWithPos : List Char → Bool → List (Char × Bool)
  | [], _ => []
  | c :: r, ap =>
    if c = '.' then digitsWithPos r true
    else if isDigitCh c then (c, ap) :: digitsWithPos r ap
    else digitsWithPos r ap

/-- Claim-side: the significant digits of a literal as the claim words it -
the mantissa digits (before any exponent marker or type suffix) from the
first nonzero digit on, where the trailing run of zeros positioned after the
decimal point does not count. -/
def claimSigDigits (word : List Char) : ℕ :=
  let mant := word.takeWhile (fun c => ¬(c = 'E' ∨ c = 'D' ∨ c = '!' ∨ c = '#'))
  let ds := digitsWithPos mant false
  let sig := ds.dropWhile (fun p => p.1 = '0')
  sig.length - (sig.reverse.takeWhile (fun p => p.1 = '0' ∧ p.2 = true)).length

/-- The token-kind selection exactly as the claim states it, phrased on the
accumulated literal text alone: a bare single digit is compact; an integral
literal with no point, no exponent marker and no type suffix whose value
fits [-32768, 32767] is one byte when in [0, 255] and a two-byte integer
otherwise; every other literal is a float, Double exactly when an explicit
double marker (D exponent or # suffix, without a ! override) was present or
at least eight significant digits were supplied. -/
def claimKind (word : List Char) : TokKind :=
  if word.length = 1 ∧ word.all isDigitCh then .compactK
  else if ¬('.' ∈ word) ∧ ¬('E' ∈ word) ∧ ¬('D' ∈ word) ∧
      ¬(word.getLastD '\x00' = '!') ∧ ¬(word.getLastD '\x00' = '#') ∧
      -0x8000 ≤ strToInt word ∧ strToInt word ≤ 0x7fff then
    if 0 ≤ strToInt word ∧ strToInt word ≤ 0xff then .byteK else .intK
  else if ¬('!' ∈ word) ∧
      (('D' ∈ word ∨ word.getLastD '\x00' = '#') ∨ 8 ≤ claimSigDigits word) then .doubleK
  else .singleK

/-! ### Shape of the words the accumulator can produce

The accumulation loop only ever builds words of the shape
`[sign] (digit | point | ws)* [marker [sign] digit*] [suffix]`; the acceptor
below (a five-mode automaton over the whitespace-stripped word) makes that
invariant precise, so that the token-selection stage can be related to the
claim's textual classification. -/

inductive WMode where
  | m0
  | m1
  | m2
  | m3
  | m4
  | mEnd
  deriving DecidableEq, Repr

/-- One step of the word-shape acceptor: `m0` start (sign allowed), `m1`
mantissa before the point, `m2` after the point, `m3` right after an
exponent marker (sign allowed), `m4` inside the exponent digits, `mEnd`
after a type suffix. -/
def wfStep : WMode → Char → Option WMode
  | .m0, c =>
    if c = '+' ∨ c = '-' then some .m1
    else if isDigitCh c then some .m1
    else if c = '.' then some .m2
    else if c = 'E' ∨ c = 'D' then some .m3
    else if c = '!' ∨ c = '#' then some .mEnd
    else none
  | .m1, c =>
    if isDigitCh c then some .m1
    else if c = '.' then some .m2
    else if c = 'E' ∨ c = 'D' then some .m3
    else if c = '!' ∨ c = '#' then some .mEnd
    else none
  | .m2, c =>
    if isDigitCh c then some .m2
    else if c = 'E' ∨ c = 'D' then some .m3
    else if c = '!' ∨ c = '#' then some .mEnd
    else none
  | .m3, c =>
    if c = '+' ∨ c = '-' then some .m4
    else if isDigitCh c then some .m4
    else none
  | .m4, c => if isDigitCh c then some .m4 else none
  | .mEnd, _ => none

/-- Run the word-shape acceptor from a mode. -/
def wfFrom : WMode → List Char → Option WMode
  | m, [] => some m
  | m, c :: r =>
    match wfStep m c with
    | none => none
    | some mNext => wfFrom mNext r

/-- The whitespace-stripped accumulated word. -/
def strip (w : List Char) : List Char := w.filter (· ∉ numWS)

/-- Loop invariant of the accumulator: the stripped word is accepted in a
non-final mode matching the flags, the flags reflect the word text, and a
word ending in a marker is exactly in mode `m3`. -/
def InvMode (st : AccSt) (m : WMode) : Prop :=
  wfFrom .m0 (strip st.word) = some m ∧
  m ≠ .mEnd ∧
  (st.hexp = true ↔ (m = .m3 ∨ m = .m4)) ∧
  ((st.hpt = true ∧ st.hexp = false) ↔ m = .m2) ∧
  (st.hpt = true ↔ '.' ∈ st.word) ∧
  (st.hexp = true ↔ ('E' ∈ st.word ∨ 'D' ∈ st.word)) ∧
  (st.word ≠ [] ∧ (st.word.getLastD '\x00' = 'E' ∨ st.word.getLastD '\x00' = 'D') → m = .m3)

/-- What the accumulator guarantees about its result: the stripped word is
accepted by the word-shape acceptor and the flags reflect the word text. -/
def InvOut (st : AccSt) : Prop :=
  (wfFrom .m0 (strip st.word)).isSome ∧
  (st.hpt = true ↔ '.' ∈ st.word) ∧
  (st.hexp = true ↔ ('E' ∈ st.word ∨ 'D' ∈ st.word))

/-- Mantissa region of the float scan as a fold (digits and points only). -/
def mantFold : List Char → SFSt → SFSt
  | [], st => st
  | c :: r, st =>
    if c = '.' then mantFold r { st with foundPoint := true }
    else mantFold r (digitStep st c)

/-- The pure counting fold matching `digits`/`zeros` tracking of the scan
over tagged digit events: `(seen-nonzero, digits, zeros)`. -/
def cnt : List (Char × Bool) → Bool × ℕ × ℕ → Bool × ℕ × ℕ
  | [], s => s
  | e :: r, s =>
    if s.1 = true ∨ ¬(e.1 = '0') then
      cnt r (true, s.2.1 + 1, if e.2 = true ∧ e.1 = '0' then s.2.2 + 1 else 0)
    else cnt r s

/-- The shapes the suffix after the mantissa can take in an accepted word. -/
def RestOk (rest : List Char) : Prop :=
  rest = [] ∨
  (∃ t, (rest = 'E' :: t ∨ rest = 'D' :: t) ∧
    (t = [] ∨ ∃ c u, t = c :: u ∧ ((c = '+' ∨ c = '-') ∨ isDigitCh c = true) ∧
      u.all isDigitCh = true)) ∨
  rest = ['!'] ∨ rest = ['#']

/-! ### PRINT USING formatter (`format_number` and its helpers) -/

/-- Inner while loop of `_get_digits` (values.py 1128-1130): repeatedly
subtract `pow10` from `num`, counting up from the character code of a digit.
The guard `1 ≤ pow10` mirrors the enclosing loop's `pow10 >= 1` bound (the
loop is only entered with a positive power of ten) and makes the recursion
well-founded. -/
def digitLoop (num pow10 : ℤ) (digit : ℕ) : ℕ × ℤ :=
  if _h : 1 ≤ pow10 ∧ pow10 ≤ num then digitLoop (num - pow10) pow10 (digit + 1)
  else (digit, num)
termination_by num.toNat
decreasing_by omega

/-- Outer loop of `_get_digits` (values.py 1125-1132): extract one digit per
power of ten, dividing `pow10` by ten each round. -/
def getDigitsAux (num pow10 : ℤ) : List Char :=
  if _h : pow10 < 1 then []
  else
    let p := digitLoop num pow10 48
    Char.ofNat p.1 :: getDigitsAux p.2 (Int.fdiv pow10 10)
termination_by pow10.toNat
decreasing_by
  rw [Int.fdiv_eq_ediv _ (by norm_num)]
  omega

/-- Trailing-zero removal of `_get_digits` (values.py 1133-1136). -/
def trimTrailZeros (s : List Char) : List Char :=
  if _h : 1 < s.length ∧ s.getLast? = some '0' then trimTrailZeros s.dropLast else s
termination_by s.length
decreasing_by
  rw [List.length_dropLast]
  omega

/-- `_get_digits` (values.py 1122-1137).  In the source `pow10` starts as
`10L ** (digits-1)`; for `digits <= 0` that Python-2 expression is a float
below one and the extraction loop never runs, yielding the empty string. -/
def getDigits (num : ℤ) (digits : ℤ) (removeTrailing : Bool) : List Char :=
  if digits ≤ 0 then []
  else
    let s := getDigitsAux num (10 ^ (digits - 1).toNat)
    if removeTrailing then trimTrailZeros s else s

/-- `_decimal_notation` (values.py 1155-1177); `typeSign` is empty or a
single type-sign character. -/
def decNotationStr (digitstr : List Char) (exp10 : ℤ) (typeSign : List Char)
    (forceDot : Bool) : List Char :=
  let e := exp10 + 1
  if e ≥ (digitstr.length : ℤ) then
    let v := digitstr ++ List.replicate (e - digitstr.length).toNat '0'
    let v := if forceDot then v ++ ['.'] else v
    if ¬forceDot ∨ typeSign = ['#'] then v ++ typeSign else v
  else if e > 0 then
    digitstr.take e.toNat ++ '.' :: digitstr.drop e.toNat ++
      (if typeSign = ['#'] then typeSign else [])
  else
    (if forceDot then ['0'] else []) ++
      '.' :: (List.replicate (-e).toNat '0' ++ digitstr) ++
      (if typeSign = ['#'] then typeSign else [])

/-- `_scientific_notation` (values.py 1139-1153). -/
def sciNotationStr (digitstr : List Char) (exp10 : ℤ) (expSign : Char)
    (digitsToDot : ℕ) (forceDot : Bool) : List Char :=
  let valstr := digitstr.take digitsToDot
  let valstr :=
    if digitsToDot < digitstr.length then valstr ++ '.' :: digitstr.drop digitsToDot
    else if digitstr.length = digitsToDot ∧ forceDot then valstr ++ ['.']
    else valstr
  let exponent := exp10 - digitsToDot + 1
  valstr ++ expSign :: (if exponent < 0 then '-' else '+') :: getDigits |exponent| 2 false

/-- Exponent-search loop of `_format_float_fixed` (values.py 1216-1220):
the smallest `e` at least the initial value with `num < 10 ^ e`. -/
def expLoop (num : ℚ) (e : ℕ) : ℕ :=
  if num < 10 ^ e then e else expLoop num (e + 1)
termination_by (max 0 ⌊num⌋).toNat + 2 - e
decreasing_by
  rename_i h
  push_neg at h
  have he : ((e : ℚ)) < 10 ^ e := by
    calc ((e : ℚ)) < ((2 ^ e : ℕ) : ℚ) := by
          exact_mod_cast Nat.lt_two_pow e
      _ ≤ ((10 ^ e : ℕ) : ℚ) := by
          exact_mod_cast Nat.pow_le_pow_left (by norm_num) e
      _ = 10 ^ e := by push_cast; ring
  have hlt : ((e : ℚ)) < num := lt_of_lt_of_le he h
  have hfl : (e : ℤ) ≤ ⌊num⌋ := by
    have := Int.le_floor.mpr hlt.le
    simpa using this
  omega

/-- Modelled from the spec: `_just_under` returns the largest float strictly
below its argument by shrinking the mantissa one step; in the exact-rational
model of the external library there is no adjacent value, so the bound
collapses to the argument itself. -/
def justUnder (q : ℚ) : ℚ := q

/-- Modelled from the spec: the scale-down half of the external library's
`bring_to_range` — divide by ten while above the upper bound, counting the
steps.  The `1 ≤ hi` guard records the callers' invariant (the bounds are
powers of ten of at least one) and makes the recursion well-founded. -/
def scaleDownLoop (v hi : ℚ) : ℚ × ℤ :=
  if h : 1 ≤ hi ∧ hi < v then
    let p := scaleDownLoop (v / 10) hi
    (p.1, p.2 + 1)
  else (v, 0)
termination_by (max 0 ⌊v⌋).toNat
decreasing_by
  obtain ⟨h1, h2⟩ := h
  have hv1 : (1 : ℚ) < v := lt_of_le_of_lt h1 h2
  have hfl : 1 ≤ ⌊v⌋ := by
    have := Int.le_floor.mpr hv1.le
    simpa using this
  have hv2 : v / 10 < ((⌊v⌋ : ℚ)) := by
    have h3 : v < (⌊v⌋ : ℚ) + 1 := Int.lt_floor_add_one v
    have h4 : (1 : ℚ) ≤ ((⌊v⌋ : ℚ)) := by exact_mod_cast hfl
    linarith
  have hlt : ⌊v / 10⌋ < ⌊v⌋ := Int.floor_lt.mpr hv2
  omega

/-- Modelled from the spec: the scale-up half of `bring_to_range` — multiply
by ten while below the lower bound. -/
def scaleUpLoop (v lo : ℚ) : ℚ × ℤ :=
  if h : 0 < v ∧ v < lo then
    let p := scaleUpLoop (v * 10) lo
    (p.1, p.2 - 1)
  else (v, 0)
termination_by (max 0 ⌈lo / v⌉).toNat
decreasing_by
  obtain ⟨h1, h2⟩ := h
  have hr1 : (1 : ℚ) < lo / v := (one_lt_div h1).mpr h2
  have hr2 : lo / (v * 10) = lo / v / 10 := by ring
  have hc1 : 2 ≤ ⌈lo / v⌉ := by
    have := Int.lt_ceil.mpr (show ((1 : ℤ) : ℚ) < lo / v by exact_mod_cast hr1)
    omega
  have hc2 : ⌈lo / v / 10⌉ < ⌈lo / v⌉ := by
    have hle : lo / v / 10 ≤ (⌈lo / v⌉ : ℚ) / 10 := by
      apply div_le_div_of_nonneg_right ?_ (by norm_num)
      exact Int.le_ceil _
    have hmono : (⌈lo / v / 10⌉ : ℤ) ≤ ⌈(⌈lo / v⌉ : ℚ) / 10⌉ := Int.ceil_le_ceil hle
    have hc3 : ⌈(⌈lo / v⌉ : ℚ) / 10⌉ < ⌈lo / v⌉ := by
      set m := ⌈lo / v⌉
      have hstep : ((m : ℚ) / 10) ≤ ((m - 1 : ℤ) : ℚ) := by
        push_cast
        have : (2 : ℚ) ≤ ((m : ℚ)) := by exact_mod_cast hc1
        linarith
      calc ⌈((m : ℚ)) / 10⌉ ≤ ((m - 1 : ℤ)) := Int.ceil_le.mpr hstep
        _ < m := by omega
    omega
  rw [hr2]
  omega

/-- Modelled from the spec: the external library's `bring_to_range` — scale
the value into `[lo, hi]` by powers of ten and round to an integer mantissa;
the step count is the decimal exponent (positive for scaling down). -/
def bringToRange (v lo hi : ℚ) : ℤ × ℤ :=
  let p := scaleDownLoop v hi
  let q := scaleUpLoop p.1 lo
  (round q.1, p.2 + q.2)

/-- Decimal digit budget of the floating types as a natural
(`fp.Single.digits = 7`, `fp.Double.digits = 16`). -/
def Flt.digitsN (f : Flt) : ℕ := if f.isDouble then 16 else 7

/-- Exponent-sign letter (`fp.Single.exp_sign = 'E'`, `fp.Double.exp_sign
= 'D'`, values.py 1110, 1114). -/
def Flt.expSign (f : Flt) : Char := if f.isDouble then 'D' else 'E'

/-- Common tail of `_format_float_scientific` (values.py 1204-1209):
the GW-reproducing exponent adjustments, then scientific notation. -/
def sciTail (digitstr : List Char) (exp10 : ℤ) (workDigits digitsBefore decimals : ℕ)
    (expSign : Char) (forceDot : Bool) : List Char :=
  let exp10 := if workDigits = 0 then exp10 + 1 else exp10
  let exp10 := exp10 + digitsBefore + decimals - 1
  sciNotationStr digitstr exp10 expSign digitsBefore forceDot

/-- `_format_float_scientific` (values.py 1179-1209); `expr` has been made
nonnegative by the caller. -/
def formatFloatSci (expr : Flt) (digitsBefore decimals : ℕ) (forceDot : Bool) : List Char :=
  let workDigits0 := digitsBefore + decimals
  let workDigits := if workDigits0 > expr.digitsN then expr.digitsN else workDigits0
  if expr.val = 0 then
    if ¬forceDot then
      if expr.expSign = 'E' then ['E', '+', '0', '0'] else ['0', 'D', '+', '0', '0']
    else
      sciTail (List.replicate (digitsBefore + decimals) '0') 0 workDigits
        digitsBefore decimals expr.expSign forceDot
  else
    let limBot := if workDigits > 0 then justUnder (10 ^ (workDigits - 1)) else 1
    let limTop := limBot * 10
    let p := bringToRange expr.val limBot limTop
    let digitstr0 := getDigits p.1 workDigits true
    let digitstr :=
      if digitstr0.length < digitsBefore + decimals then
        digitstr0 ++ List.replicate (digitsBefore + decimals - digitstr0.length) '0'
      else digitstr0
    sciTail digitstr p.2 workDigits digitsBefore decimals expr.expSign forceDot

/-- `_format_float_fixed` (values.py 1211-1231); `expr` has been made
nonnegative by the caller. -/
def formatFloatFixed (expr : Flt) (decimals : ℕ) (forceDot : Bool) : List Char :=
  let unrounded : ℚ := expr.val * 10 ^ decimals
  let num : ℤ := round unrounded
  let exp10 : ℤ := (expLoop (num : ℚ) 1 : ℕ)
  let workDigits : ℤ := exp10 + 1
  let hasDiff := exp10 > (expr.digitsN : ℤ)
  let diff : ℤ := if hasDiff then exp10 - expr.digitsN else 0
  let num2 : ℤ := if hasDiff then round (unrounded / 10 ^ diff.toNat) else num
  let workDigits := workDigits - diff
  let digitstr := getDigits num2 (workDigits - 1) false ++ List.replicate diff.toNat '0'
  decNotationStr digitstr (workDigits - 1 - 1 - decimals + diff) [] forceDot

/-- The body of `format_number` (values.py 1060-1092) before the final
overflow-escape-or-pad step: sign placement, currency sign, and the fixed or
scientific rendering of the absolute value. -/
def formatCore (value : Flt) (tokens : List Char) (digitsBefore decimals : ℕ) : List Char :=
  let hasDollar := '$' ∈ tokens
  let forceDot := '.' ∈ tokens
  let leadPlus := tokens.headD ' ' = '+'
  let postPlus := ¬leadPlus ∧ tokens.getLastD ' ' = '+'
  let postMinus := ¬leadPlus ∧ ¬(tokens.getLastD ' ' = '+') ∧ tokens.getLastD ' ' = '-'
  let plainCase := ¬leadPlus ∧ ¬(tokens.getLastD ' ' = '+') ∧ ¬(tokens.getLastD ' ' = '-')
  let lead : List Char :=
    if leadPlus then [if value.neg then '-' else '+']
    else if plainCase ∧ value.neg then ['-'] else []
  let postSign : List Char :=
    if postPlus then [if value.neg then '-' else '+']
    else if postMinus then [if value.neg then '-' else ' ']
    else []
  let digitsBefore := if plainCase ∧ ¬hasDollar then digitsBefore - 1 else digitsBefore
  let absVal : Flt := { value with neg := false }
  lead ++ (if hasDollar then ['$'] else []) ++
    (if '^' ∈ tokens then formatFloatSci absVal digitsBefore decimals forceDot
     else formatFloatFixed absVal decimals forceDot) ++ postSign

/-- `format_number` (values.py 1055-1098): range-check the digit budget
(raising `IFC` for more than 24 positions), render, then either prefix the
overflow escape `%` or left-pad with the filler to the template width. -/
def formatNumber (value : Flt) (tokens : List Char) (digitsBefore decimals : ℕ) :
    Except Err (List Char) :=
  if digitsBefore + decimals > 24 then .error .ifc
  else
    let valstr := formatCore value tokens digitsBefore decimals
    if valstr.length > tokens.length then .ok ('%' :: valstr)
    else .ok (List.replicate (tokens.length - valstr.length)
      (if '*' ∈ tokens then '*' else ' ') ++ valstr)

/-! ### Helper lemmas about the byte encoding and the monad -/

@[simp] lemma exc_bind_ok {α β : Type} (a : α) (f : α → Except Err β) :
    (Except.ok a : Except Err α) >>= f = f a := rfl

@[simp] lemma exc_bind_err {α β : Type} (e : Err) (f : α → Except Err β) :
    (Except.error e : Except Err α) >>= f = .error e := rfl

set_option maxRecDepth 4096 in
lemma land127 (b : ℕ) (h : b < 256) : b &&& 0x7f = b % 128 := by
  have H : ∀ x : Fin 256, (x : ℕ) &&& 0x7f = (x : ℕ) % 128 := by decide
  exact H ⟨b, h⟩

set_option maxRecDepth 4096 in
lemma land128 (b : ℕ) (h : b < 256) :
    b &&& 0x80 = if b < 128 then 0 else 128 := by
  have H : ∀ x : Fin 256, (x : ℕ) &&& 0x80 = if (x : ℕ) < 128 then 0 else 128 := by decide
  exact H ⟨b, h⟩

lemma decode_encInt (n : ℤ) (h1 : -0x8000 ≤ n) (h2 : n ≤ 0x7fff) :
    integerToInt (encLo n) (encHi n) false = n := by
  unfold encLo encHi integerToInt
  set m := (if n < 0 then 0x10000 + n else n).toNat with hm
  have hmn : (m : ℤ) = if n < 0 then 0x10000 + n else n := by
    rw [hm]; split <;> omega
  have hlt : m < 0x10000 := by split at hmn <;> omega
  have hb1 : m / 256 < 256 := by omega
  simp only [Bool.false_eq_true, if_false]
  rw [land127 _ hb1, land128 _ hb1]
  split at hmn <;> split <;> omega

lemma intValue_encInt (n : ℤ) (h1 : -0x8000 ≤ n) (h2 : n ≤ 0x7fff) :
    intValue (encInt n) = n := by
  unfold encInt intValue
  exact decode_encInt n h1 h2

lemma intToInteger_ok (n : ℤ) (u : Bool) (h1 : -0x8000 ≤ n)
    (h2 : n ≤ if u then 0xffff else 0x7fff) :
    intToInteger n u = .ok (encInt n) := by
  unfold intToInteger
  have hc : ¬(n > (if u then (0xffff : ℤ) else 0x7fff) ∨ n < -0x8000) := by
    push_neg
    exact ⟨h2, h1⟩
  simp only [hc, if_false]

lemma toInteger_encInt (n : ℤ) (u : Bool) : toInteger (encInt n) u = .ok (encInt n) := by
  unfold encInt toInteger
  simp

lemma toInt_encInt (n : ℤ) (h1 : -0x8000 ≤ n) (h2 : n ≤ 0x7fff) :
    toInt (encInt n) = .ok n := by
  unfold toInt
  rw [toInteger_encInt]
  simp [Except.map, intValue_encInt n h1 h2]

@[simp] lemma Flt.ofVal_val (d : Bool) (q : ℚ) : (Flt.ofVal d q).val = q := by
  unfold Flt.ofVal Flt.val
  by_cases h : q < 0 <;> simp [h, abs_of_nonneg, abs_of_neg, le_of_not_lt]

@[simp] lemma Flt.fromInt_val (d : Bool) (n : ℤ) : (Flt.fromInt d n).val = n := by
  unfold Flt.fromInt; simp

@[simp] lemma Flt.fromInt_isDouble (d : Bool) (n : ℤ) : (Flt.fromInt d n).isDouble = d := rfl

lemma typeChar_encInt (n : ℤ) : typeChar (encInt n) = '%' := by
  unfold encInt typeChar; simp

lemma toMostPrecise_int (n m : ℤ) :
    toMostPrecise (encInt n) (encInt m) = .ok (encInt n, encInt m) := by
  unfold toMostPrecise
  rw [typeChar_encInt, typeChar_encInt]
  simp [toInteger_encInt]

lemma add_encInt (n m : ℤ) (h1 : -0x8000 ≤ n) (h2 : n ≤ 0x7fff)
    (h3 : -0x8000 ≤ m) (h4 : m ≤ 0x7fff) :
    add (encInt n) (encInt m) = .ok (.vFlt (Flt.fromInt false (n + m))) := by
  unfold add
  rw [toMostPrecise_int]
  show (match encInt n, encInt m with
    | .vFlt f, .vFlt g => Except.ok (Value.vFlt (f.iadd g))
    | .vInt a0 a1, .vInt b0 b1 =>
      Except.ok (.vFlt (Flt.fromInt false (integerToInt a0 a1 false + integerToInt b0 b1 false)))
    | _, _ => Except.error Err.typeMismatch) = _
  unfold encInt
  rw [show (match Value.vInt (encLo n) (encHi n), Value.vInt (encLo m) (encHi m) with
    | .vFlt f, .vFlt g => Except.ok (Value.vFlt (f.iadd g))
    | .vInt a0 a1, .vInt b0 b1 =>
      Except.ok (.vFlt (Flt.fromInt false (integerToInt a0 a1 false + integerToInt b0 b1 false)))
    | _, _ => Except.error Err.typeMismatch) =
      Except.ok (.vFlt (Flt.fromInt false
        (integerToInt (encLo n) (encHi n) false + integerToInt (encLo m) (encHi m) false)))
    from rfl]
  rw [decode_encInt n h1 h2, decode_encInt m h3 h4]

lemma fmod_bounds_neg (a : ℤ) {b : ℤ} (hb : b < 0) :
    b < Int.fmod a b ∧ Int.fmod a b ≤ 0 := by
  match b, hb with
  | Int.negSucc n, _ =>
    match a with
    | Int.ofNat 0 =>
      show Int.negSucc n < Int.fmod 0 (Int.negSucc n) ∧ Int.fmod 0 (Int.negSucc n) ≤ 0
      rw [Int.zero_fmod, Int.negSucc_eq]
      omega
    | Int.ofNat (Nat.succ m) =>
      show Int.negSucc n < Int.subNatNat (m % (n+1)) n ∧ Int.subNatNat (m % (n+1)) n ≤ 0
      rw [Int.subNatNat_eq_coe, Int.negSucc_eq]
      have := Nat.mod_lt m (show 0 < n+1 by omega)
      omega
    | Int.negSucc m =>
      show Int.negSucc n < -(Int.ofNat ((m+1) % (n+1))) ∧ -(Int.ofNat ((m+1) % (n+1))) ≤ 0
      rw [Int.negSucc_eq]
      have := Nat.mod_lt (m+1) (show 0 < n+1 by omega)
      simp only [Int.ofNat_eq_coe]
      omega

lemma intToInteger_overflow (n : ℤ) (h : 32767 < n) :
    intToInteger n false = .error .overflow := by
  unfold intToInteger
  have hc : (n > (0x7fff : ℤ) ∨ n < -0x8000) := Or.inl h
  simp only [Bool.false_eq_true, if_false, hc, if_true]

lemma toSingle_encInt (n : ℤ) (h1 : -0x8000 ≤ n) (h2 : n ≤ 0x7fff) :
    toSingle (encInt n) = .ok (.vFlt (Flt.fromInt false n)) := by
  unfold encInt
  rw [show toSingle (.vInt (encLo n) (encHi n)) =
    .ok (.vFlt (Flt.fromInt false (integerToInt (encLo n) (encHi n) false))) from rfl]
  rw [decode_encInt n h1 h2]

lemma add_int_single (n : ℤ) (h1 : -0x8000 ≤ n) (h2 : n ≤ 0x7fff)
    (f : Flt) (hf : f.isDouble = false) :
    add (encInt n) (.vFlt f) = .ok (.vFlt ((Flt.fromInt false n).iadd f)) := by
  unfold add toMostPrecise
  rw [typeChar_encInt]
  have ht : typeChar (.vFlt f) = '!' := by simp [typeChar, hf]
  rw [ht]
  have h3 : ¬(('%' : Char) = '#' ∨ ('!' : Char) = '#') := by decide
  rw [if_neg h3, if_pos (by decide : ('%' : Char) = '!' ∨ ('!' : Char) = '!')]
  rw [toSingle_encInt n h1 h2]
  simp [toSingle, hf]

lemma negate_encInt (m : ℤ) (h3 : -0x8000 ≤ m) (h4 : m ≤ 0x7fff) :
    negate (encInt m) =
      if -m = 32768 then .ok (.vFlt (Flt.fromInt false (-m)))
      else intToInteger (-m) false := by
  unfold encInt
  rw [show negate (.vInt (encLo m) (encHi m)) =
    (if -(integerToInt (encLo m) (encHi m) false) = 32768
     then Except.ok (.vFlt (Flt.fromInt false (-(integerToInt (encLo m) (encHi m) false))))
     else intToInteger (-(integerToInt (encLo m) (encHi m) false)) false) from rfl]
  rw [decode_encInt m h3 h4]

lemma modOp_encInt (dr hs : Bool) (a b : ℤ) (ha1 : -0x8000 ≤ a) (ha2 : a ≤ 0x7fff)
    (hb1 : -0x8000 ≤ b) (hb2 : b ≤ 0x7fff) (hb : b ≠ 0) :
    modOp dr hs (encInt a) (encInt b) =
      (intToInteger (if a < 0 ∨ Int.fmod a b < 0 then Int.fmod a b - b else Int.fmod a b)
        false).bind (fun v => .ok (v, false)) := by
  unfold modOp
  rw [toInt_encInt b hb1 hb2, toInt_encInt a ha1 ha2]
  simp only [exc_bind_ok, hb, if_false]
  split <;> rfl

/-! ### Evaluation lemmas for the formatter loops -/

lemma expLoop_of_lt {num : ℚ} {e : ℕ} (h : num < 10 ^ e) : expLoop num e = e := by
  unfold expLoop
  rw [if_pos h]

lemma expLoop_step {num : ℚ} {e : ℕ} (h : ¬num < 10 ^ e) :
    expLoop num e = expLoop num (e + 1) := by
  conv_lhs => unfold expLoop
  rw [if_neg h]

lemma digitLoop_divmod (num pow10 : ℤ) (d : ℕ) (hp : 1 ≤ pow10) (hn : 0 ≤ num) :
    digitLoop num pow10 d = (d + (num / pow10).toNat, num % pow10) := by
  by_cases h : pow10 ≤ num
  · rw [show digitLoop num pow10 d = digitLoop (num - pow10) pow10 (d + 1) by
      conv_lhs => unfold digitLoop
      rw [dif_pos ⟨hp, h⟩]]
    rw [digitLoop_divmod (num - pow10) pow10 (d + 1) hp (by omega)]
    have hdiv : (num - pow10) / pow10 = num / pow10 - 1 := by
      have h2 := Int.add_mul_ediv_right num (-1) (show pow10 ≠ 0 by omega)
      simpa using h2
    have hmod : (num - pow10) % pow10 = num % pow10 := by
      rw [Int.sub_emod, Int.emod_self]
      simp
    have hq : 1 ≤ num / pow10 := by
      rw [Int.le_ediv_iff_mul_le (show 0 < pow10 by omega)]
      omega
    rw [hdiv, hmod]
    refine Prod.ext ?_ rfl
    show d + 1 + (num / pow10 - 1).toNat = d + (num / pow10).toNat
    omega
  · unfold digitLoop
    rw [dif_neg (by tauto)]
    rw [Int.ediv_eq_zero_of_lt hn (by omega), Int.emod_eq_of_lt hn (by omega)]
    simp
termination_by num.toNat
decreasing_by omega

lemma getDigitsAux_stop (num pow10 : ℤ) (h : pow10 < 1) : getDigitsAux num pow10 = [] := by
  unfold getDigitsAux
  rw [dif_pos h]

lemma getDigitsAux_step (num pow10 : ℤ) (h : ¬pow10 < 1) :
    getDigitsAux num pow10 =
      Char.ofNat (digitLoop num pow10 48).1 ::
        getDigitsAux (digitLoop num pow10 48).2 (Int.fdiv pow10 10) := by
  conv_lhs => unfold getDigitsAux
  rw [dif_neg h]

lemma getDigits_num7 : getDigits 7 1 false = ['7'] := by
  unfold getDigits
  rw [if_neg (by norm_num)]
  simp only [Bool.false_eq_true, if_false]
  rw [show ((1 : ℤ) - 1).toNat = 0 from by decide, show (10 : ℤ) ^ 0 = 1 from by norm_num]
  rw [getDigitsAux_step _ _ (by norm_num)]
  rw [digitLoop_divmod _ _ _ (by norm_num) (by norm_num)]
  simp only []
  rw [List.cons.injEq]
  refine ⟨by decide, ?_⟩
  rw [show ((7 : ℤ) % 1) = 0 from by decide, show Int.fdiv 1 10 = 0 from by decide]
  exact getDigitsAux_stop _ _ (by decide)

lemma getDigits_num123 : getDigits 123 3 false = ['1', '2', '3'] := by
  unfold getDigits
  rw [if_neg (by norm_num)]
  simp only [Bool.false_eq_true, if_false]
  rw [show ((3 : ℤ) - 1).toNat = 2 from by decide, show (10 : ℤ) ^ 2 = 100 from by norm_num]
  rw [getDigitsAux_step _ _ (by norm_num)]
  rw [digitLoop_divmod _ _ _ (by norm_num) (by norm_num)]
  simp only []
  rw [List.cons.injEq]
  refine ⟨by decide, ?_⟩
  rw [show ((123 : ℤ) % 100) = 23 from by decide, show Int.fdiv 100 10 = 10 from by decide]
  rw [getDigitsAux_step _ _ (by norm_num)]
  rw [digitLoop_divmod _ _ _ (by norm_num) (by norm_num)]
  simp only []
  rw [List.cons.injEq]
  refine ⟨by decide, ?_⟩
  rw [show ((23 : ℤ) % 10) = 3 from by decide, show Int.fdiv 10 10 = 1 from by decide]
  rw [getDigitsAux_step _ _ (by norm_num)]
  rw [digitLoop_divmod _ _ _ (by norm_num) (by norm_num)]
  simp only []
  rw [List.cons.injEq]
  refine ⟨by decide, ?_⟩
  rw [show ((3 : ℤ) % 1) = 0 from by decide, show Int.fdiv 1 10 = 0 from by decide]
  exact getDigitsAux_stop _ _ (by decide)

lemma formatFloatFixed_7 : formatFloatFixed ⟨false, false, 7⟩ 0 false = ['7'] := by
  simp only [formatFloatFixed, Flt.digitsN]
  rw [show (Flt.val ⟨false, false, 7⟩) = 7 from rfl]
  rw [show ((7 : ℚ) * 10 ^ (0 : ℕ)) = 7 from by norm_num]
  rw [show round (7 : ℚ) = 7 from by norm_num [round_eq]]
  rw [expLoop_of_lt (by norm_num)]
  norm_num
  rw [getDigits_num7]
  rfl

lemma formatFloatFixed_123 : formatFloatFixed ⟨false, false, 123⟩ 0 false = ['1', '2', '3'] := by
  simp only [formatFloatFixed, Flt.digitsN]
  rw [show (Flt.val ⟨false, false, 123⟩) = 123 from rfl]
  rw [show ((123 : ℚ) * 10 ^ (0 : ℕ)) = 123 from by norm_num]
  rw [show round (123 : ℚ) = 123 from by norm_num [round_eq]]
  rw [expLoop_step (by norm_num), expLoop_step (by norm_num), expLoop_of_lt (by norm_num)]
  norm_num
  rw [getDigits_num123]
  rfl

lemma formatCore_7 : formatCore ⟨false, false, 7⟩ ['#', '#'] 2 0 = ['7'] := by
  simp only [formatCore]
  simp
  rw [formatFloatFixed_7]

lemma formatCore_123 : formatCore ⟨false, false, 123⟩ ['#', '#'] 2 0 = ['1', '2', '3'] := by
  simp only [formatCore]
  simp
  rw [formatFloatFixed_123]

/-! ### Lemmas for the tokenizer claim: accumulator invariant -/

lemma digit_ne {c : Char} (h : isDigitCh c = true) :
    c ≠ '+' ∧ c ≠ '-' ∧ c ≠ '.' ∧ c ≠ 'E' ∧ c ≠ 'D' ∧ c ≠ '!' ∧ c ≠ '#' ∧
      c ∉ numWS ∧ c ∉ sepChars := by
  refine ⟨?_, ?_, ?_, ?_, ?_, ?_, ?_, ?_, ?_⟩
  all_goals first
    | (rintro rfl; exact absurd h (by decide))
    | (intro hm
       simp only [numWS, sepChars, List.mem_cons, List.not_mem_nil, or_false] at hm
       rcases hm with rfl | rfl | rfl <;> exact absurd h (by decide))

lemma wfStep_digit {c : Char} (h : isDigitCh c = true) :
    wfStep .m0 c = some .m1 ∧ wfStep .m1 c = some .m1 ∧ wfStep .m2 c = some .m2 ∧
      wfStep .m3 c = some .m4 ∧ wfStep .m4 c = some .m4 := by
  obtain ⟨h1, h2, h3, h4, h5, h6, h7, -, -⟩ := digit_ne h
  refine ⟨?_, ?_, ?_, ?_, ?_⟩ <;>
    simp [wfStep, h, h1, h2, h3, h4, h5, h6, h7]

lemma strip_append (w : List Char) (c : Char) :
    strip (w ++ [c]) = strip w ++ (if c ∈ numWS then [] else [c]) := by
  by_cases hc : c ∈ numWS <;> simp [strip, List.filter_append, hc]

lemma mem_strip {c : Char} (hc : c ∉ numWS) (w : List Char) :
    c ∈ strip w ↔ c ∈ w := by
  simp [strip, List.mem_filter, hc]

lemma wfFrom_append (m : WMode) (u : List Char) (c : Char) :
    wfFrom m (u ++ [c]) = (wfFrom m u).bind (fun mm => wfStep mm c) := by
  induction u generalizing m with
  | nil =>
    show wfFrom m [c] = _
    unfold wfFrom
    cases hs : wfStep m c <;> simp [hs, wfFrom]
  | cons a u ih =>
    show wfFrom m (a :: (u ++ [c])) = _
    unfold wfFrom
    cases hs : wfStep m a <;> simp [hs, ih]

lemma mem_append_ne {x c : Char} (h : x ≠ c) (w : List Char) :
    (x ∈ w ++ [c]) ↔ x ∈ w := by
  simp [List.mem_append, h]

lemma getLastD_app (w : List Char) (c d : Char) : (w ++ [c]).getLastD d = c := by
  simp [List.getLastD_concat]

lemma accLoop_inv (input : List Char) :
    ∀ st : AccSt, (∃ m, InvMode st m) → InvOut (accLoop input st) := by
  induction input with
  | nil =>
    rintro st ⟨m, hwf, -, -, -, hptw, hexpw, -⟩
    exact ⟨by rw [show accLoop [] st = st from rfl, hwf]; rfl, hptw, hexpw⟩
  | cons c0 rest ih =>
    rintro st ⟨m, hwf, hne, hexpm, hptm, hptw, hexpw, hlast⟩
    simp only [accLoop]
    by_cases hc1 : upperCh c0 ∈ sepChars
    · rw [if_pos hc1]
      exact ih _ ⟨m, hwf, hne, hexpm, hptm, hptw, hexpw, hlast⟩
    rw [if_neg hc1]
    by_cases hc2 : upperCh c0 = '.' ∧ ¬st.hpt = true ∧ ¬st.hexp = true
    · rw [if_pos hc2]
      obtain ⟨hdot, hnpt, hnexp⟩ := hc2
      have hm2 : m = .m0 ∨ m = .m1 := by
        cases m <;> simp_all
      have hstep : wfStep m '.' = some .m2 := by
        rcases hm2 with rfl | rfl <;> decide
      refine ih _ ⟨.m2, ?_, by simp, ?_, ?_, ?_, ?_, ?_⟩
      · rw [strip_append, if_neg (by decide : ('.' : Char) ∉ numWS), wfFrom_append, hwf]
        simpa using hstep
      · simp only [AccSt.hexp]
        simp_all
      · simp only [AccSt.hexp, AccSt.hpt]
        simp_all
      · simp [AccSt.hpt]
      · simp only [AccSt.hexp, AccSt.word]
        rw [mem_append_ne (by decide), mem_append_ne (by decide)]
        exact hexpw
      · simp only [AccSt.word]
        rw [getLastD_app]
        simp
    rw [if_neg hc2]
    by_cases hc3 : (upperCh c0 = 'E' ∨ upperCh c0 = 'D') ∧ ¬st.hexp = true
    · rw [if_pos hc3]
      obtain ⟨hED, hnexp⟩ := hc3
      by_cases hpk : upperCh c0 = 'E' ∧
          (upperCh (rest.headD '\x00') = 'L' ∨ upperCh (rest.headD '\x00') = 'Q')
      · rw [if_pos hpk]
        exact ⟨by rw [hwf]; rfl, hptw, hexpw⟩
      rw [if_neg hpk]
      have hm3 : m = .m0 ∨ m = .m1 ∨ m = .m2 := by
        cases m <;> simp_all
      have hstep : wfStep m (upperCh c0) = some .m3 := by
        rcases hED with h | h <;> rw [h] <;>
          rcases hm3 with rfl | rfl | rfl <;> decide
      have hcne : upperCh c0 ≠ '.' ∧ upperCh c0 ∉ numWS := by
        rcases hED with h | h <;> rw [h] <;> exact ⟨by decide, by decide⟩
      refine ih _ ⟨.m3, ?_, by simp, ?_, ?_, ?_, ?_, ?_⟩
      · rw [strip_append, if_neg hcne.2, wfFrom_append, hwf]
        simpa using hstep
      · simp [AccSt.hexp]
      · simp [AccSt.hpt, AccSt.hexp]
      · simp only [AccSt.hpt, AccSt.word]
        rw [mem_append_ne (Ne.symm hcne.1)]
        exact hptw
      · simp only [AccSt.hexp, AccSt.word]
        constructor
        · intro
          rcases hED with h | h <;> rw [h] <;> simp [List.mem_append]
        · intro
          trivial
      · simp only [AccSt.word]
        intro
        trivial
    rw [if_neg hc3]
    by_cases hc4 : (upperCh c0 = '+' ∨ upperCh c0 = '-') ∧
        (st.word = [] ∨ st.word.getLastD '\x00' = 'E' ∨ st.word.getLastD '\x00' = 'D')
    · rw [if_pos hc4]
      obtain ⟨hsgn, hpos⟩ := hc4
      have hcne : upperCh c0 ≠ '.' ∧ upperCh c0 ≠ 'E' ∧ upperCh c0 ≠ 'D' ∧
          upperCh c0 ∉ numWS := by
        rcases hsgn with h | h <;> rw [h] <;>
          exact ⟨by decide, by decide, by decide, by decide⟩
      rcases hpos with hw0 | hlastED
      · -- sign as first character: mode m0 to m1
        have hm0 : m = .m0 := by
          rw [hw0] at hwf
          simpa [strip, wfFrom] using hwf.symm
        have hstep : wfStep .m0 (upperCh c0) = some .m1 := by
          rcases hsgn with h | h <;> rw [h] <;> decide
        have hexpF : st.hexp = false := by
          rw [hw0] at hexpw
          simp at hexpw
          exact hexpw
        have hptF : st.hpt = false := by
          rw [hw0] at hptw
          simp at hptw
          exact hptw
        refine ih _ ⟨.m1, ?_, by simp, ?_, ?_, ?_, ?_, ?_⟩
        · rw [strip_append, if_neg hcne.2.2.2, wfFrom_append, hwf, hm0]
          simpa using hstep
        · simp [AccSt.hexp, hexpF]
        · simp [AccSt.hpt, AccSt.hexp, hptF]
        · simp only [AccSt.hpt, AccSt.word]
          rw [mem_append_ne (Ne.symm hcne.1)]
          exact hptw
        · simp only [AccSt.hexp, AccSt.word]
          rw [mem_append_ne (Ne.symm hcne.2.1), mem_append_ne (Ne.symm hcne.2.2.1)]
          exact hexpw
        · simp only [AccSt.word]
          rw [getLastD_app]
          rintro ⟨-, h | h⟩ <;>
            first
              | exact absurd h hcne.2.1
              | exact absurd h hcne.2.2.1
      · -- sign right after a marker: mode m3 to m4
        have hwne : st.word ≠ [] := by
          rintro hw0
          rw [hw0] at hlastED
          rcases hlastED with h | h <;> exact absurd h (by decide)
        have hm3 : m = .m3 := hlast ⟨hwne, hlastED⟩
        have hstep : wfStep .m3 (upperCh c0) = some .m4 := by
          rcases hsgn with h | h <;> rw [h] <;> decide
        have hexpT : st.hexp = true := hexpm.mpr (Or.inl hm3)
        refine ih _ ⟨.m4, ?_, by simp, ?_, ?_, ?_, ?_, ?_⟩
        · rw [strip_append, if_neg hcne.2.2.2, wfFrom_append, hwf, hm3]
          simpa using hstep
        · simp [AccSt.hexp, hexpT]
        · simp [AccSt.hpt, AccSt.hexp, hexpT]
        · simp only [AccSt.hpt, AccSt.word]
          rw [mem_append_ne (Ne.symm hcne.1)]
          exact hptw
        · simp only [AccSt.hexp, AccSt.word]
          rw [mem_append_ne (Ne.symm hcne.2.1), mem_append_ne (Ne.symm hcne.2.2.1)]
          exact hexpw
        · simp only [AccSt.word]
          rw [getLastD_app]
          rintro ⟨-, h | h⟩ <;>
            first
              | exact absurd h hcne.2.1
              | exact absurd h hcne.2.2.1
    rw [if_neg hc4]
    by_cases hc5 : isDigitCh (upperCh c0) = true
    · rw [if_pos hc5]
      obtain ⟨h1, h2, h3, h4, h5, h6, h7, h8, -⟩ := digit_ne hc5
      obtain ⟨w0, w1, w2, w3, w4⟩ := wfStep_digit hc5
      have hstrip : strip (st.word ++ [upperCh c0]) = strip st.word ++ [upperCh c0] := by
        rw [strip_append, if_neg h8]
      cases m with
      | mEnd => exact absurd rfl hne
      | m0 =>
        refine ih _ ⟨.m1, ?_, by simp, ?_, ?_, ?_, ?_, ?_⟩
        · rw [hstrip, wfFrom_append, hwf]
          simpa using w0
        · simp only [AccSt.hexp]
          simp_all
        · simp only [AccSt.hpt, AccSt.hexp]
          simp_all
        · simp only [AccSt.hpt, AccSt.word]
          rw [mem_append_ne (Ne.symm h3)]
          exact hptw
        · simp only [AccSt.hexp, AccSt.word]
          rw [mem_append_ne (Ne.symm h4), mem_append_ne (Ne.symm h5)]
          exact hexpw
        · simp only [AccSt.word]
          rw [getLastD_app]
          rintro ⟨-, h | h⟩ <;>
            first
              | exact absurd h h4
              | exact absurd h h5
      | m1 =>
        refine ih _ ⟨.m1, ?_, by simp, ?_, ?_, ?_, ?_, ?_⟩
        · rw [hstrip, wfFrom_append, hwf]
          simpa using w1
        · simp only [AccSt.hexp]
          simp_all
        · simp only [AccSt.hpt, AccSt.hexp]
          simp_all
        · simp only [AccSt.hpt, AccSt.word]
          rw [mem_append_ne (Ne.symm h3)]
          exact hptw
        · simp only [AccSt.hexp, AccSt.word]
          rw [mem_append_ne (Ne.symm h4), mem_append_ne (Ne.symm h5)]
          exact hexpw
        · simp only [AccSt.word]
          rw [getLastD_app]
          rintro ⟨-, h | h⟩ <;>
            first
              | exact absurd h h4
              | exact absurd h h5
      | m2 =>
        refine ih _ ⟨.m2, ?_, by simp, ?_, ?_, ?_, ?_, ?_⟩
        · rw [hstrip, wfFrom_append, hwf]
          simpa using w2
        · simp only [AccSt.hexp]
          simp_all
        · simp only [AccSt.hpt, AccSt.hexp]
          simp_all
        · simp only [AccSt.hpt, AccSt.word]
          rw [mem_append_ne (Ne.symm h3)]
          exact hptw
        · simp only [AccSt.hexp, AccSt.word]
          rw [mem_append_ne (Ne.symm h4), mem_append_ne (Ne.symm h5)]
          exact hexpw
        · simp only [AccSt.word]
          rw [getLastD_app]
          rintro ⟨-, h | h⟩ <;>
            first
              | exact absurd h h4
              | exact absurd h h5
      | m3 =>
        refine ih _ ⟨.m4, ?_, by simp, ?_, ?_, ?_, ?_, ?_⟩
        · rw [hstrip, wfFrom_append, hwf]
          simpa using w3
        · simp only [AccSt.hexp]
          simp_all
        · simp only [AccSt.hpt, AccSt.hexp]
          simp_all
        · simp only [AccSt.hpt, AccSt.word]
          rw [mem_append_ne (Ne.symm h3)]
          exact hptw
        · simp only [AccSt.hexp, AccSt.word]
          rw [mem_append_ne (Ne.symm h4), mem_append_ne (Ne.symm h5)]
          exact hexpw
        · simp only [AccSt.word]
          rw [getLastD_app]
          rintro ⟨-, h | h⟩ <;>
            first
              | exact absurd h h4
              | exact absurd h h5
      | m4 =>
        refine ih _ ⟨.m4, ?_, by simp, ?_, ?_, ?_, ?_, ?_⟩
        · rw [hstrip, wfFrom_append, hwf]
          simpa using w4
        · simp only [AccSt.hexp]
          simp_all
        · simp only [AccSt.hpt, AccSt.hexp]
          simp_all
        · simp only [AccSt.hpt, AccSt.word]
          rw [mem_append_ne (Ne.symm h3)]
          exact hptw
        · simp only [AccSt.hexp, AccSt.word]
          rw [mem_append_ne (Ne.symm h4), mem_append_ne (Ne.symm h5)]
          exact hexpw
        · simp only [AccSt.word]
          rw [getLastD_app]
          rintro ⟨-, h | h⟩ <;>
            first
              | exact absurd h h4
              | exact absurd h h5
    rw [if_neg hc5]
    by_cases hc6 : upperCh c0 ∈ numWS
    · rw [if_pos hc6]
      have hcne : upperCh c0 ≠ '.' ∧ upperCh c0 ≠ 'E' ∧ upperCh c0 ≠ 'D' := by
        simp only [numWS, List.mem_cons, List.not_mem_nil, or_false] at hc6
        rcases hc6 with h | h | h <;> rw [h] <;>
          exact ⟨by decide, by decide, by decide⟩
      refine ih _ ⟨m, ?_, hne, hexpm, hptm, ?_, ?_, ?_⟩
      · rw [strip_append, if_pos hc6, List.append_nil]
        exact hwf
      · simp only [AccSt.hpt, AccSt.word]
        rw [mem_append_ne (Ne.symm hcne.1)]
        exact hptw
      · simp only [AccSt.hexp, AccSt.word]
        rw [mem_append_ne (Ne.symm hcne.2.1), mem_append_ne (Ne.symm hcne.2.2)]
        exact hexpw
      · simp only [AccSt.word]
        rw [getLastD_app]
        rintro ⟨-, h | h⟩ <;>
          first
            | exact absurd h hcne.2.1
            | exact absurd h hcne.2.2
    rw [if_neg hc6]
    by_cases hc7 : (upperCh c0 = '!' ∨ upperCh c0 = '#') ∧ ¬st.hexp = true
    · rw [if_pos hc7]
      obtain ⟨hsuf, hnexp⟩ := hc7
      have hm3 : m = .m0 ∨ m = .m1 ∨ m = .m2 := by
        cases m <;> simp_all
      have hstep : wfStep m (upperCh c0) = some .mEnd := by
        rcases hsuf with h | h <;> rw [h] <;>
          rcases hm3 with rfl | rfl | rfl <;> decide
      have hcne : upperCh c0 ≠ '.' ∧ upperCh c0 ≠ 'E' ∧ upperCh c0 ≠ 'D' ∧
          upperCh c0 ∉ numWS := by
        rcases hsuf with h | h <;> rw [h] <;>
          exact ⟨by decide, by decide, by decide, by decide⟩
      refine ⟨?_, ?_, ?_⟩
      · simp only [AccSt.word]
        rw [strip_append, if_neg hcne.2.2.2, wfFrom_append, hwf]
        simp [hstep]
      · simp only [AccSt.hpt, AccSt.word]
        rw [mem_append_ne (Ne.symm hcne.1)]
        exact hptw
      · simp only [AccSt.hexp, AccSt.word]
        rw [mem_append_ne (Ne.symm hcne.2.1), mem_append_ne (Ne.symm hcne.2.2.1)]
        exact hexpw
    rw [if_neg hc7]
    exact ⟨by rw [hwf]; rfl, hptw, hexpw⟩

lemma digit_toNat {c : Char} (h : isDigitCh c = true) :
    48 ≤ c.toNat ∧ c.toNat ≤ 57 ∧ (c = '0' ↔ c.toNat = 48) := by
  simp only [isDigitCh, decide_eq_true_eq] at h
  refine ⟨h.1, h.2, ?_, fun hn => ?_⟩
  · rintro rfl
    rfl
  · have h2 : Char.ofNat c.toNat = Char.ofNat 48 := by rw [hn]
    rw [Char.ofNat_toNat] at h2
    exact h2

lemma finishWord_kill (w : List Char) : finishWord w true = ['0'] := rfl

lemma filter_dropWhile {α : Type} (p q : α → Bool) (hpq : ∀ x, p x = true → q x = false) :
    ∀ l : List α, (l.dropWhile p).filter q = l.filter q := by
  intro l
  induction l with
  | nil => rfl
  | cons a l ih =>
    by_cases hp : p a = true
    · rw [List.dropWhile_cons_of_pos hp, List.filter_cons_of_neg (by rw [hpq a hp]; simp)]
      exact ih
    · rw [List.dropWhile_cons_of_neg hp]

lemma finishWord_nokill (w : List Char) : finishWord w false = strip w := by
  show ((((w.reverse).dropWhile (· ∈ numWS)).reverse).filter (· ∉ numWS)) = strip w
  rw [List.filter_reverse, filter_dropWhile _ _ ?hq, List.filter_reverse, List.reverse_reverse]
  · rfl
  case hq =>
    intro x hx
    simp only [decide_eq_true_eq] at hx
    simp [hx]

lemma getLastD_mem {l : List Char} (h : l ≠ []) (d : Char) : l.getLastD d ∈ l := by
  induction l using List.reverseRecOn with
  | nil => exact absurd rfl h
  | append_singleton u c _ih =>
    rw [getLastD_app]
    simp

lemma getLastD_append_right (a : List Char) {b : List Char} (hb : b ≠ []) (d : Char) :
    (a ++ b).getLastD d = b.getLastD d := by
  induction b using List.reverseRecOn with
  | nil => exact absurd rfl hb
  | append_singleton u c _ih =>
    rw [← List.append_assoc, getLastD_app, getLastD_app]

lemma takeWhile_append_all {α : Type} {q : α → Bool} {l : List α} (l2 : List α)
    (h : ∀ x ∈ l, q x = true) :
    (l ++ l2).takeWhile q = l ++ l2.takeWhile q := by
  induction l with
  | nil => rfl
  | cons a l ih =>
    rw [List.cons_append, List.takeWhile_cons_of_pos (h a (by simp)), ih]
    · rfl
    · exact fun x hx => h x (by simp [hx])

lemma takeWhile_append_not {α : Type} {q : α → Bool} :
    ∀ (l l2 : List α), (¬ ∀ x ∈ l, q x = true) →
      (l ++ l2).takeWhile q = l.takeWhile q := by
  intro l
  induction l with
  | nil => exact fun l2 h => absurd (by simp) h
  | cons a l ih =>
    intro l2 h
    by_cases hqa : q a = true
    · rw [List.cons_append, List.takeWhile_cons_of_pos hqa, List.takeWhile_cons_of_pos hqa,
        ih l2 (fun hall => h (by simpa [hqa] using hall))]
    · rw [List.cons_append, List.takeWhile_cons_of_neg hqa, List.takeWhile_cons_of_neg hqa]

lemma dropWhile_head_neg {α : Type} {q : α → Bool} :
    ∀ {l : List α} {a : α} {t : List α}, l.dropWhile q = a :: t → q a = false := by
  intro l
  induction l with
  | nil => intro a t h; exact absurd h (by simp)
  | cons b l ih =>
    intro a t h
    by_cases hqb : q b = true
    · rw [List.dropWhile_cons_of_pos hqb] at h
      exact ih h
    · rw [List.dropWhile_cons_of_neg hqb] at h
      injection h with h1 _
      subst h1
      exact Bool.eq_false_iff.mpr hqb

/-! ### Decomposition of the words accepted by the shape automaton -/

lemma wf_mEnd_nil : ∀ (u : List Char) (m : WMode), wfFrom .mEnd u = some m → u = [] := by
  rintro (_ | ⟨c, r⟩) m h
  · rfl
  · simp [wfFrom, wfStep] at h

lemma wf_m4_digits : ∀ (u : List Char) (m : WMode), wfFrom .m4 u = some m →
    u.all isDigitCh = true := by
  intro u
  induction u with
  | nil => simp
  | cons c r ih =>
    intro m h
    rw [wfFrom] at h
    by_cases hd : isDigitCh c = true
    · rw [show wfStep .m4 c = some .m4 from by rw [wfStep, if_pos hd]] at h
      simp only [List.all_cons, hd, Bool.true_and]
      exact ih m h
    · rw [show wfStep .m4 c = none from by rw [wfStep, if_neg hd]] at h
      exact absurd h (by simp)

lemma wf_m3_rest : ∀ (t : List Char) (m : WMode), wfFrom .m3 t = some m →
    t = [] ∨ ∃ c u, t = c :: u ∧ ((c = '+' ∨ c = '-') ∨ isDigitCh c = true) ∧
      u.all isDigitCh = true := by
  rintro (_ | ⟨c, r⟩) m h
  · exact Or.inl rfl
  · rw [wfFrom] at h
    refine Or.inr ⟨c, r, rfl, ?_⟩
    by_cases hs : c = '+' ∨ c = '-'
    · rw [show wfStep .m3 c = some .m4 from by rw [wfStep, if_pos hs]] at h
      exact ⟨Or.inl hs, wf_m4_digits r m h⟩
    by_cases hd : isDigitCh c = true
    · rw [show wfStep .m3 c = some .m4 from by
        rw [wfStep, if_neg hs, if_pos hd]] at h
      exact ⟨Or.inr hd, wf_m4_digits r m h⟩
    · rw [show wfStep .m3 c = none from by rw [wfStep, if_neg hs, if_neg hd]] at h
      exact absurd h (by simp)

lemma wf_m2_decomp : ∀ (u : List Char) (m : WMode), wfFrom .m2 u = some m →
    ∃ mant rest, u = mant ++ rest ∧
      mant.all (fun c => isDigitCh c ∨ c = '.') = true ∧ RestOk rest := by
  intro u
  induction u with
  | nil => exact fun m _ => ⟨[], [], rfl, rfl, Or.inl rfl⟩
  | cons c r ih =>
    intro m h
    rw [wfFrom] at h
    by_cases hd : isDigitCh c = true
    · rw [show wfStep .m2 c = some .m2 from by rw [wfStep, if_pos hd]] at h
      obtain ⟨mant, rest, rfl, hall, hrest⟩ := ih m h
      exact ⟨c :: mant, rest, rfl, by rw [List.all_cons, hall]; simp [hd], hrest⟩
    by_cases hED : c = 'E' ∨ c = 'D'
    · rw [show wfStep .m2 c = some .m3 from by rw [wfStep, if_neg hd, if_pos hED]] at h
      refine ⟨[], c :: r, rfl, rfl, Or.inr (Or.inl ⟨r, ?_, ?_⟩)⟩
      · rcases hED with rfl | rfl
        · exact Or.inl rfl
        · exact Or.inr rfl
      · exact wf_m3_rest r m h
    by_cases hsuf : c = '!' ∨ c = '#'
    · rw [show wfStep .m2 c = some .mEnd from by
        rw [wfStep, if_neg hd, if_neg hED, if_pos hsuf]] at h
      obtain rfl := wf_mEnd_nil r m h
      refine ⟨[], [c], rfl, rfl, ?_⟩
      rcases hsuf with rfl | rfl
      · exact Or.inr (Or.inr (Or.inl rfl))
      · exact Or.inr (Or.inr (Or.inr rfl))
    · rw [show wfStep .m2 c = none from by
        rw [wfStep, if_neg hd, if_neg hED, if_neg hsuf]] at h
      exact absurd h (by simp)

lemma wf_m1_decomp : ∀ (u : List Char) (m : WMode), wfFrom .m1 u = some m →
    ∃ mant rest, u = mant ++ rest ∧
      mant.all (fun c => isDigitCh c ∨ c = '.') = true ∧ RestOk rest := by
  intro u
  induction u with
  | nil => exact fun m _ => ⟨[], [], rfl, rfl, Or.inl rfl⟩
  | cons c r ih =>
    intro m h
    rw [wfFrom] at h
    by_cases hd : isDigitCh c = true
    · rw [show wfStep .m1 c = some .m1 from by rw [wfStep, if_pos hd]] at h
      obtain ⟨mant, rest, rfl, hall, hrest⟩ := ih m h
      exact ⟨c :: mant, rest, rfl, by rw [List.all_cons, hall]; simp [hd], hrest⟩
    by_cases hpt : c = '.'
    · rw [show wfStep .m1 c = some .m2 from by rw [wfStep, if_neg hd, if_pos hpt]] at h
      obtain ⟨mant, rest, rfl, hall, hrest⟩ := wf_m2_decomp r m h
      exact ⟨c :: mant, rest, rfl, by rw [List.all_cons, hall]; simp [hpt], hrest⟩
    by_cases hED : c = 'E' ∨ c = 'D'
    · rw [show wfStep .m1 c = some .m3 from by
        rw [wfStep, if_neg hd, if_neg hpt, if_pos hED]] at h
      refine ⟨[], c :: r, rfl, rfl, Or.inr (Or.inl ⟨r, ?_, ?_⟩)⟩
      · rcases hED with rfl | rfl
        · exact Or.inl rfl
        · exact Or.inr rfl
      · exact wf_m3_rest r m h
    by_cases hsuf : c = '!' ∨ c = '#'
    · rw [show wfStep .m1 c = some .mEnd from by
        rw [wfStep, if_neg hd, if_neg hpt, if_neg hED, if_pos hsuf]] at h
      obtain rfl := wf_mEnd_nil r m h
      refine ⟨[], [c], rfl, rfl, ?_⟩
      rcases hsuf with rfl | rfl
      · exact Or.inr (Or.inr (Or.inl rfl))
      · exact Or.inr (Or.inr (Or.inr rfl))
    · rw [show wfStep .m1 c = none from by
        rw [wfStep, if_neg hd, if_neg hpt, if_neg hED, if_neg hsuf]] at h
      exact absurd h (by simp)

lemma wf_m0_decomp (w : List Char) (m : WMode) (h : wfFrom .m0 w = some m) :
    ∃ sgn mant rest, w = sgn ++ mant ++ rest ∧
      (sgn = [] ∨ sgn = ['+'] ∨ sgn = ['-']) ∧
      mant.all (fun c => isDigitCh c ∨ c = '.') = true ∧ RestOk rest := by
  match w with
  | [] => exact ⟨[], [], [], rfl, Or.inl rfl, rfl, Or.inl rfl⟩
  | c :: r =>
    rw [wfFrom] at h
    by_cases hs : c = '+' ∨ c = '-'
    · rw [show wfStep .m0 c = some .m1 from by rw [wfStep, if_pos hs]] at h
      obtain ⟨mant, rest, rfl, hall, hrest⟩ := wf_m1_decomp r m h
      refine ⟨[c], mant, rest, rfl, ?_, hall, hrest⟩
      rcases hs with rfl | rfl
      · exact Or.inr (Or.inl rfl)
      · exact Or.inr (Or.inr rfl)
    by_cases hd : isDigitCh c = true
    · rw [show wfStep .m0 c = some .m1 from by rw [wfStep, if_neg hs, if_pos hd]] at h
      obtain ⟨mant, rest, rfl, hall, hrest⟩ := wf_m1_decomp r m h
      exact ⟨[], c :: mant, rest, rfl, Or.inl rfl, by rw [List.all_cons, hall]; simp [hd], hrest⟩
    by_cases hpt : c = '.'
    · rw [show wfStep .m0 c = some .m2 from by
        rw [wfStep, if_neg hs, if_neg hd, if_pos hpt]] at h
      obtain ⟨mant, rest, rfl, hall, hrest⟩ := wf_m2_decomp r m h
      exact ⟨[], c :: mant, rest, rfl, Or.inl rfl, by rw [List.all_cons, hall]; simp [hpt], hrest⟩
    by_cases hED : c = 'E' ∨ c = 'D'
    · rw [show wfStep .m0 c = some .m3 from by
        rw [wfStep, if_neg hs, if_neg hd, if_neg hpt, if_pos hED]] at h
      refine ⟨[], [], c :: r, rfl, Or.inl rfl, rfl, Or.inr (Or.inl ⟨r, ?_, ?_⟩)⟩
      · rcases hED with rfl | rfl
        · exact Or.inl rfl
        · exact Or.inr rfl
      · exact wf_m3_rest r m h
    by_cases hsuf : c = '!' ∨ c = '#'
    · rw [show wfStep .m0 c = some .mEnd from by
        rw [wfStep, if_neg hs, if_neg hd, if_neg hpt, if_neg hED, if_pos hsuf]] at h
      obtain rfl := wf_mEnd_nil r m h
      refine ⟨[], [], [c], rfl, Or.inl rfl, rfl, ?_⟩
      rcases hsuf with rfl | rfl
      · exact Or.inr (Or.inr (Or.inl rfl))
      · exact Or.inr (Or.inr (Or.inr rfl))
    · rw [show wfStep .m0 c = none from by
        rw [wfStep, if_neg hs, if_neg hd, if_neg hpt, if_neg hED, if_neg hsuf]] at h
      exact absurd h (by simp)

/-! ### The counting fold against the claim-side significant-digit formula -/

lemma cnt_skip_zeros : ∀ (D : List (Char × Bool)),
    cnt D (false, 0, 0) = cnt (D.dropWhile (fun p => p.1 = '0')) (false, 0, 0) := by
  intro D
  induction D with
  | nil => rfl
  | cons e r ih =>
    by_cases hz : e.1 = '0'
    · rw [List.dropWhile_cons_of_pos (by simp [hz])]
      rw [show cnt (e :: r) (false, 0, 0) = cnt r (false, 0, 0) from by
        rw [cnt, if_neg (by simp [hz])]]
      exact ih
    · rw [List.dropWhile_cons_of_neg (by simp [hz])]

lemma cnt_from_true : ∀ (L : List (Char × Bool)) (d z : ℕ),
    cnt L (true, d, z) =
      (true, d + L.length,
        if ∀ e ∈ L, e.1 = '0' ∧ e.2 = true then z + L.length
        else (L.reverse.takeWhile (fun p => p.1 = '0' ∧ p.2 = true)).length) := by
  intro L
  induction L with
  | nil => simp [cnt]
  | cons e r ih =>
    intro d z
    rw [show cnt (e :: r) (true, d, z) =
        cnt r (true, d + 1, if e.2 = true ∧ e.1 = '0' then z + 1 else 0) from by
      rw [cnt, if_pos (Or.inl rfl)]]
    rw [ih]
    by_cases hall : ∀ x ∈ (e :: r), x.1 = '0' ∧ x.2 = true
    · have he : e.1 = '0' ∧ e.2 = true := hall e (by simp)
      have hrall : ∀ x ∈ r, x.1 = '0' ∧ x.2 = true := fun x hx => hall x (by simp [hx])
      rw [if_pos hrall, if_pos hall, if_pos ⟨he.2, he.1⟩]
      refine congrArg₂ _ rfl (congrArg₂ _ (by simp; omega) (by simp; omega))
    · rw [if_neg hall]
      by_cases hrall : ∀ x ∈ r, x.1 = '0' ∧ x.2 = true
      · have hne : ¬(e.1 = '0' ∧ e.2 = true) := by
          intro he
          refine hall (fun x hx => ?_)
          rcases List.mem_cons.mp hx with rfl | hx2
          · exact he
          · exact hrall x hx2
        rw [if_pos hrall, if_neg (fun hc => hne ⟨hc.2, hc.1⟩)]
        have htw : ((e :: r).reverse.takeWhile
            (fun p => p.1 = '0' ∧ p.2 = true)).length = r.length := by
          rw [List.reverse_cons,
            takeWhile_append_all [e] (fun x hx => by
              simp only [List.mem_reverse] at hx
              simpa using hrall x hx)]
          rw [List.takeWhile_cons_of_neg (by simpa using hne), List.append_nil,
            List.length_reverse]
        rw [htw]
        refine congrArg₂ _ rfl (congrArg₂ _ (by simp; omega) (by omega))
      · rw [if_neg hrall]
        have htw : ((e :: r).reverse.takeWhile (fun p => p.1 = '0' ∧ p.2 = true)) =
            (r.reverse.takeWhile (fun p => p.1 = '0' ∧ p.2 = true)) := by
          rw [List.reverse_cons, takeWhile_append_not r.reverse [e] (fun hc =>
            hrall (fun x hx => by simpa using hc x (by simpa using hx)))]
        rw [htw]
        refine congrArg₂ _ rfl (congrArg₂ _ (by simp; omega) rfl)

lemma cnt_spec (D : List (Char × Bool)) :
    (cnt D (false, 0, 0)).2.1 = (D.dropWhile (fun p => p.1 = '0')).length ∧
    (cnt D (false, 0, 0)).2.2 =
      ((D.dropWhile (fun p => p.1 = '0')).reverse.takeWhile
        (fun p => p.1 = '0' ∧ p.2 = true)).length := by
  rw [cnt_skip_zeros]
  rcases hsig : D.dropWhile (fun p => p.1 = '0') with _ | ⟨e, r⟩
  · rw [hsig]
    exact ⟨rfl, rfl⟩
  · rw [hsig]
    have hz : ¬(e.1 = '0') := by simpa using dropWhile_head_neg hsig
    rw [show cnt (e :: r) (false, 0, 0) = cnt r (true, 1, 0) from by
      rw [cnt, if_pos (Or.inr hz), if_neg (fun hc => hz hc.2)]]
    rw [cnt_from_true]
    constructor
    · show 1 + r.length = (e :: r).length
      rw [List.length_cons]
      omega
    · by_cases hrall : ∀ x ∈ r, x.1 = '0' ∧ x.2 = true
      · rw [if_pos hrall, List.reverse_cons,
          takeWhile_append_all [e] (fun x hx => by
            simp only [List.mem_reverse] at hx
            simpa using hrall x hx),
          List.takeWhile_cons_of_neg (by simp [hz]), List.append_nil,
          List.length_reverse]
        show 0 + r.length = r.length
        omega
      · rw [if_neg hrall, List.reverse_cons, takeWhile_append_not r.reverse [e] (fun hc =>
          hrall (fun x hx => by simpa using hc x (by simpa using hx)))]

/-! ### Simulation of the float scan on decomposed words -/

lemma digitStep_frame (st : SFSt) (c : Char) :
    (digitStep st c).foundSign = st.foundSign ∧
    (digitStep st c).foundPoint = st.foundPoint ∧
    (digitStep st c).foundExp = st.foundExp ∧
    (digitStep st c).foundExpSign = st.foundExpSign ∧
    (digitStep st c).isDouble = st.isDouble ∧
    (digitStep st c).isSingle = st.isSingle := by
  simp only [digitStep]
  split <;> exact ⟨rfl, rfl, rfl, rfl, rfl, rfl⟩

lemma digitStep_zero {st : SFSt} {c : Char} (hm : st.mantissa = 0) (hc : c.toNat = 48) :
    digitStep st c = { st with
      mantissa := 0
      exp10 := if st.foundPoint then st.exp10 - 1 else st.exp10 } := by
  simp only [digitStep, hm, hc]
  norm_num

lemma digitStep_pos {st : SFSt} {c : Char}
    (hm : st.mantissa * 10 + ((c.toNat : ℤ) - 48) ≠ 0) :
    digitStep st c = { st with
      mantissa := st.mantissa * 10 + ((c.toNat : ℤ) - 48)
      exp10 := if st.foundPoint then st.exp10 - 1 else st.exp10
      digits := st.digits + 1
      zeros := if st.foundPoint ∧ c = '0' then st.zeros + 1 else 0 } := by
  simp only [digitStep]
  rw [if_pos hm]

lemma mantFold_frame : ∀ (mant : List Char) (st : SFSt),
    (mantFold mant st).foundSign = st.foundSign ∧
    (mantFold mant st).foundExp = st.foundExp ∧
    (mantFold mant st).foundExpSign = st.foundExpSign ∧
    (mantFold mant st).isDouble = st.isDouble ∧
    (mantFold mant st).isSingle = st.isSingle := by
  intro mant
  induction mant with
  | nil => exact fun st => ⟨rfl, rfl, rfl, rfl, rfl⟩
  | cons c r ih =>
    intro st
    by_cases hc : c = '.'
    · rw [show mantFold (c :: r) st = mantFold r { st with foundPoint := true } from by
        rw [mantFold, if_pos hc]]
      exact ih _
    · rw [show mantFold (c :: r) st = mantFold r (digitStep st c) from by
        rw [mantFold, if_neg hc]]
      obtain ⟨f1, -, f3, f4, f5, f6⟩ := digitStep_frame st c
      obtain ⟨g1, g3, g4, g5, g6⟩ := ih (digitStep st c)
      exact ⟨f1 ▸ g1, f3 ▸ g3, f4 ▸ g4, f5 ▸ g5, f6 ▸ g6⟩

lemma mantFold_cnt : ∀ (mant : List Char) (st : SFSt) (seen : Bool),
    mant.all (fun c => isDigitCh c ∨ c = '.') = true →
    0 ≤ st.mantissa → (st.mantissa = 0 ↔ seen = false) →
    (mantFold mant st).digits =
        (cnt (digitsWithPos mant st.foundPoint) (seen, st.digits, st.zeros)).2.1 ∧
    (mantFold mant st).zeros =
        (cnt (digitsWithPos mant st.foundPoint) (seen, st.digits, st.zeros)).2.2 := by
  intro mant
  induction mant with
  | nil => exact fun st seen _ _ _ => ⟨rfl, rfl⟩
  | cons c r ih =>
    intro st seen hall h0 hiff
    have hcr : (isDigitCh c = true ∨ c = '.') ∧
        r.all (fun c => isDigitCh c ∨ c = '.') = true := by
      rw [List.all_cons] at hall
      exact ⟨by simpa using (Bool.and_eq_true_iff.mp hall).1,
        (Bool.and_eq_true_iff.mp hall).2⟩
    by_cases hpt : c = '.'
    · rw [show mantFold (c :: r) st = mantFold r { st with foundPoint := true } from by
        rw [mantFold, if_pos hpt]]
      rw [show digitsWithPos (c :: r) st.foundPoint = digitsWithPos r true from by
        rw [digitsWithPos, if_pos hpt]]
      exact ih { st with foundPoint := true } seen hcr.2 h0 hiff
    · have hd : isDigitCh c = true := by
        rcases hcr.1 with h | h
        · exact h
        · exact absurd h hpt
      obtain ⟨h48, h57, h0iff⟩ := digit_toNat hd
      rw [show mantFold (c :: r) st = mantFold r (digitStep st c) from by
        rw [mantFold, if_neg hpt]]
      rw [show digitsWithPos (c :: r) st.foundPoint =
          (c, st.foundPoint) :: digitsWithPos r st.foundPoint from by
        rw [digitsWithPos, if_neg hpt, if_pos hd]]
      by_cases hm : st.mantissa = 0
      · have hseen : seen = false := hiff.mp hm
        by_cases hcz : c = '0'
        · rw [digitStep_zero hm (h0iff.mp hcz)]
          rw [show cnt ((c, st.foundPoint) :: digitsWithPos r st.foundPoint)
                (seen, st.digits, st.zeros) =
              cnt (digitsWithPos r st.foundPoint) (seen, st.digits, st.zeros) from by
            rw [cnt, if_neg (by simp [hseen, hcz])]]
          refine ih _ seen hcr.2 (by norm_num) ?_
          show (0 : ℤ) = 0 ↔ seen = false
          simp [hseen]
        · have hc48 : c.toNat ≠ 48 := fun hn => hcz (h0iff.mpr hn)
          have hmne : st.mantissa * 10 + ((c.toNat : ℤ) - 48) ≠ 0 := by
            rw [hm]
            omega
          rw [digitStep_pos hmne]
          rw [show cnt ((c, st.foundPoint) :: digitsWithPos r st.foundPoint)
                (seen, st.digits, st.zeros) =
              cnt (digitsWithPos r st.foundPoint)
                (true, st.digits + 1,
                  if st.foundPoint ∧ c = '0' then st.zeros + 1 else 0) from by
            rw [cnt, if_pos (Or.inr hcz)]]
          refine ih _ true hcr.2 ?_ ?_
          · show 0 ≤ st.mantissa * 10 + ((c.toNat : ℤ) - 48)
            omega
          · show st.mantissa * 10 + ((c.toNat : ℤ) - 48) = 0 ↔ true = false
            simp [hmne]
      · have hseen : seen = true := by
          rcases Bool.eq_false_or_eq_true seen with h | h
          · exact h
          · exact absurd (hiff.mpr h) hm
        have hm1 : 1 ≤ st.mantissa := by omega
        have hmne : st.mantissa * 10 + ((c.toNat : ℤ) - 48) ≠ 0 := by
          have h10 : 10 ≤ st.mantissa * 10 := by omega
          omega
        rw [digitStep_pos hmne]
        rw [show cnt ((c, st.foundPoint) :: digitsWithPos r st.foundPoint)
              (seen, st.digits, st.zeros) =
            cnt (digitsWithPos r st.foundPoint)
              (true, st.digits + 1,
                if st.foundPoint ∧ c = '0' then st.zeros + 1 else 0) from by
          rw [cnt, if_pos (Or.inl hseen)]]
        refine ih _ true hcr.2 ?_ ?_
        · show 0 ≤ st.mantissa * 10 + ((c.toNat : ℤ) - 48)
          have h10 : 10 ≤ st.mantissa * 10 := by omega
          omega
        · show st.mantissa * 10 + ((c.toNat : ℤ) - 48) = 0 ↔ true = false
          simp [hmne]

lemma sfLoop_sign (c : Char) (l : List Char) (hc : c = '+' ∨ c = '-') :
    sfLoop (c :: l) SFSt.init =
      sfLoop l { SFSt.init with foundSign := true, neg := c = '-' } := by
  have hws : ¬ c ∈ numWS := by rcases hc with rfl | rfl <;> decide
  rw [sfLoop, if_neg hws]
  simp only [SFSt.init]
  rw [if_pos ⟨by simp, hc⟩]
  simp

lemma sfLoop_nosign_head (c : Char) (l : List Char) (hws : c ∉ numWS)
    (hc : ¬(c = '+' ∨ c = '-')) :
    sfLoop (c :: l) SFSt.init = sfLoop (c :: l) { SFSt.init with foundSign := true } := by
  rw [sfLoop, if_neg hws, sfLoop, if_neg hws]
  have h1 : ¬(¬SFSt.init.foundSign = true ∧ (c = '+' ∨ c = '-')) := fun h => hc h.2
  have h2 : ¬(¬({ SFSt.init with foundSign := true } : SFSt).foundSign = true ∧
      (c = '+' ∨ c = '-')) := fun h => hc h.2
  rw [if_neg h1, if_neg h2]
  rfl

lemma sfLoop_mant : ∀ (mant : List Char) (st : SFSt) (l : List Char),
    st.foundSign = true → st.foundExp = false →
    mant.all (fun c => isDigitCh c ∨ c = '.') = true →
    sfLoop (mant ++ l) st = sfLoop l (mantFold mant st) := by
  intro mant
  induction mant with
  | nil => exact fun st l _ _ _ => rfl
  | cons c r ih =>
    intro st l hfs hfe hall
    have hcr : (isDigitCh c = true ∨ c = '.') ∧
        r.all (fun c => isDigitCh c ∨ c = '.') = true := by
      rw [List.all_cons] at hall
      exact ⟨by simpa using (Bool.and_eq_true_iff.mp hall).1,
        (Bool.and_eq_true_iff.mp hall).2⟩
    have hws : c ∉ numWS := by
      rcases hcr.1 with h | h
      · exact (digit_ne h).2.2.2.2.2.2.2.1
      · rw [h]
        decide
    rw [List.cons_append, sfLoop, if_neg hws,
      if_neg (show ¬(¬st.foundSign = true ∧ (c = '+' ∨ c = '-')) from fun h => h.1 hfs)]
    rw [show (if st.foundSign = true then st else { st with foundSign := true }) = st from by
      rw [hfs, if_pos rfl]]
    rw [if_pos (show ¬st.foundExp = true from by rw [hfe]; simp)]
    rcases hcr.1 with hd | hdot
    · rw [if_pos hd]
      rw [show mantFold (c :: r) st = mantFold r (digitStep st c) from by
        rw [mantFold, if_neg (digit_ne hd).2.2.1]]
      refine ih (digitStep st c) l ?_ ?_ hcr.2
      · rw [(digitStep_frame st c).1, hfs]
      · rw [(digitStep_frame st c).2.2.1, hfe]
    · rw [if_neg (show ¬isDigitCh c = true from by rw [hdot]; decide), if_pos hdot]
      rw [show mantFold (c :: r) st = mantFold r { st with foundPoint := true } from by
        rw [mantFold, if_pos hdot]]
      exact ih _ l hfs hfe hcr.2

lemma sfLoop_expdigits : ∀ (u : List Char) (st : SFSt), u.all isDigitCh = true →
    st.foundSign = true → st.foundExp = true → st.foundExpSign = true →
    (sfLoop u st).digits = st.digits ∧ (sfLoop u st).zeros = st.zeros ∧
    (sfLoop u st).isSingle = st.isSingle ∧ (sfLoop u st).isDouble = st.isDouble := by
  intro u
  induction u with
  | nil => exact fun st _ _ _ _ => ⟨rfl, rfl, rfl, rfl⟩
  | cons c r ih =>
    intro st hall hfs hfe hfes
    have hcr : isDigitCh c = true ∧ r.all isDigitCh = true := by
      rw [List.all_cons] at hall
      exact Bool.and_eq_true_iff.mp hall
    have hws : c ∉ numWS := (digit_ne hcr.1).2.2.2.2.2.2.2.1
    rw [sfLoop, if_neg hws,
      if_neg (show ¬(¬st.foundSign = true ∧ (c = '+' ∨ c = '-')) from fun h => h.1 hfs)]
    rw [show (if st.foundSign = true then st else { st with foundSign := true }) = st from by
      rw [hfs, if_pos rfl]]
    rw [if_neg (show ¬(¬st.foundExp = true) from by rw [hfe]; simp),
      if_neg (show ¬(¬st.foundExpSign = true) from by rw [hfes]; simp),
      if_pos hcr.1]
    exact ih (expStep st c) hcr.2 hfs hfe hfes

lemma sfLoop_exptail (t : List Char)
    (ht : t = [] ∨ ∃ c u, t = c :: u ∧ ((c = '+' ∨ c = '-') ∨ isDigitCh c = true) ∧
      u.all isDigitCh = true)
    (st : SFSt) (hfs : st.foundSign = true) (hfe : st.foundExp = true)
    (hfes : st.foundExpSign = false) :
    (sfLoop t st).digits = st.digits ∧ (sfLoop t st).zeros = st.zeros ∧
    (sfLoop t st).isSingle = st.isSingle ∧ (sfLoop t st).isDouble = st.isDouble := by
  rcases ht with rfl | ⟨c, u, rfl, hc, hu⟩
  · exact ⟨rfl, rfl, rfl, rfl⟩
  · have hws : c ∉ numWS := by
      rcases hc with (rfl | rfl) | hd
      · decide
      · decide
      · exact (digit_ne hd).2.2.2.2.2.2.2.1
    rw [sfLoop, if_neg hws,
      if_neg (show ¬(¬st.foundSign = true ∧ (c = '+' ∨ c = '-')) from fun h => h.1 hfs)]
    rw [show (if st.foundSign = true then st else { st with foundSign := true }) = st from by
      rw [hfs, if_pos rfl]]
    rw [if_neg (show ¬(¬st.foundExp = true) from by rw [hfe]; simp),
      if_pos (show ¬st.foundExpSign = true from by rw [hfes]; simp)]
    rcases hc with hsgn | hd
    · rw [if_pos hsgn]
      exact sfLoop_expdigits u _ hu hfs hfe rfl
    · rw [if_neg (show ¬(c = '+' ∨ c = '-') from by
        rintro (rfl | rfl) <;> exact absurd hd (by decide)), if_pos hd]
      exact sfLoop_expdigits u _ hu hfs hfe rfl

lemma sfLoop_rest (rest : List Char) (hr : RestOk rest) (st : SFSt)
    (hfs : st.foundSign = true) (hfe : st.foundExp = false)
    (hfes : st.foundExpSign = false) (hsd : st.isDouble = false)
    (hss : st.isSingle = false) :
    (sfLoop rest st).digits = st.digits ∧ (sfLoop rest st).zeros = st.zeros ∧
    ((sfLoop rest st).isSingle = true ↔ rest = ['!']) ∧
    ((sfLoop rest st).isDouble = true ↔ (rest = ['#'] ∨ rest.head? = some 'D')) := by
  rcases hr with rfl | ⟨t, hMt, htail⟩ | rfl | rfl
  · refine ⟨rfl, rfl, ?_, ?_⟩
    · show st.isSingle = true ↔ ([] : List Char) = ['!']
      simp [hss]
    · show st.isDouble = true ↔ (([] : List Char) = ['#'] ∨ ([] : List Char).head? = some 'D')
      simp [hsd]
  · have hM : ∃ M, rest = M :: t ∧ (M = 'E' ∨ M = 'D') := by
      rcases hMt with rfl | rfl
      · exact ⟨'E', rfl, Or.inl rfl⟩
      · exact ⟨'D', rfl, Or.inr rfl⟩
    obtain ⟨M, rfl, hMED⟩ := hM
    have hws : M ∉ numWS := by rcases hMED with rfl | rfl <;> decide
    rw [sfLoop, if_neg hws,
      if_neg (show ¬(¬st.foundSign = true ∧ (M = '+' ∨ M = '-')) from fun h => h.1 hfs)]
    rw [show (if st.foundSign = true then st else { st with foundSign := true }) = st from by
      rw [hfs, if_pos rfl]]
    rw [if_pos (show ¬st.foundExp = true from by rw [hfe]; simp)]
    rw [if_neg (show ¬isDigitCh M = true from by
      rcases hMED with rfl | rfl <;> decide)]
    rw [if_neg (show ¬M = '.' from by rcases hMED with rfl | rfl <;> decide)]
    rw [if_pos (show upperCh M = 'D' ∨ upperCh M = 'E' from by
      rcases hMED with rfl | rfl
      · exact Or.inr rfl
      · exact Or.inl rfl)]
    obtain ⟨e1, e2, e3, e4⟩ := sfLoop_exptail t htail
      { st with foundExp := true, isDouble := upperCh M = 'D' } hfs rfl hfes
    refine ⟨e1, e2, ?_, ?_⟩
    · rw [e3]
      show st.isSingle = true ↔ M :: t = ['!']
      rcases hMED with rfl | rfl <;> simp [hss]
    · rw [e4]
      show (decide (upperCh M = 'D')) = true ↔ (M :: t = ['#'] ∨ (M :: t).head? = some 'D')
      rcases hMED with rfl | rfl <;> simp <;> decide
  · rw [show sfLoop ['!'] st = { st with isSingle := true } from by
      rw [sfLoop, if_neg (by decide),
        if_neg (show ¬(¬st.foundSign = true ∧ ('!' = '+' ∨ '!' = '-')) from fun h =>
          by rcases h.2 with h2 | h2 <;> exact absurd h2 (by decide)),
        show (if st.foundSign = true then st else { st with foundSign := true }) = st from by
          rw [hfs, if_pos rfl],
        if_pos (show ¬st.foundExp = true from by rw [hfe]; simp),
        if_neg (show ¬isDigitCh '!' = true from by decide),
        if_neg (show ('!' : Char) ≠ '.' from by decide),
        if_neg (show ¬(upperCh '!' = 'D' ∨ upperCh '!' = 'E') from by decide),
        if_pos rfl]]
    exact ⟨rfl, rfl, by simp, by simp [hsd]⟩
  · rw [show sfLoop ['#'] st = { st with isDouble := true } from by
      rw [sfLoop, if_neg (by decide),
        if_neg (show ¬(¬st.foundSign = true ∧ ('#' = '+' ∨ '#' = '-')) from fun h =>
          by rcases h.2 with h2 | h2 <;> exact absurd h2 (by decide)),
        show (if st.foundSign = true then st else { st with foundSign := true }) = st from by
          rw [hfs, if_pos rfl],
        if_pos (show ¬st.foundExp = true from by rw [hfe]; simp),
        if_neg (show ¬isDigitCh '#' = true from by decide),
        if_neg (show ('#' : Char) ≠ '.' from by decide),
        if_neg (show ¬(upperCh '#' = 'D' ∨ upperCh '#' = 'E') from by decide),
        if_neg (show ('#' : Char) ≠ '!' from by decide),
        if_pos rfl]]
    exact ⟨rfl, rfl, by simp [hss], by simp⟩

lemma sfLoop_decomp (sgn mant rest : List Char)
    (hs : sgn = [] ∨ sgn = ['+'] ∨ sgn = ['-'])
    (hm : mant.all (fun c => isDigitCh c ∨ c = '.') = true)
    (hr : RestOk rest) :
    (sfLoop (sgn ++ mant ++ rest) SFSt.init).digits =
        (cnt (digitsWithPos mant false) (false, 0, 0)).2.1 ∧
    (sfLoop (sgn ++ mant ++ rest) SFSt.init).zeros =
        (cnt (digitsWithPos mant false) (false, 0, 0)).2.2 ∧
    ((sfLoop (sgn ++ mant ++ rest) SFSt.init).isSingle = true ↔ rest = ['!']) ∧
    ((sfLoop (sgn ++ mant ++ rest) SFSt.init).isDouble = true ↔
        (rest = ['#'] ∨ rest.head? = some 'D')) := by
  have main : ∀ S : SFSt, S.foundSign = true → S.foundPoint = false →
      S.foundExp = false → S.foundExpSign = false → S.isDouble = false →
      S.isSingle = false → S.mantissa = 0 → S.digits = 0 → S.zeros = 0 →
      (sfLoop (mant ++ rest) S).digits =
          (cnt (digitsWithPos mant false) (false, 0, 0)).2.1 ∧
      (sfLoop (mant ++ rest) S).zeros =
          (cnt (digitsWithPos mant false) (false, 0, 0)).2.2 ∧
      ((sfLoop (mant ++ rest) S).isSingle = true ↔ rest = ['!']) ∧
      ((sfLoop (mant ++ rest) S).isDouble = true ↔
          (rest = ['#'] ∨ rest.head? = some 'D')) := by
    intro S hfs hfp hfe hfes hsd hss hm0 hd0 hz0
    rw [sfLoop_mant mant S rest hfs hfe hm]
    obtain ⟨f1, f2, f3, f4, f5⟩ := mantFold_frame mant S
    obtain ⟨r1, r2, r3, r4⟩ := sfLoop_rest rest hr (mantFold mant S)
      (by rw [f1, hfs]) (by rw [f2, hfe]) (by rw [f3, hfes])
      (by rw [f4, hsd]) (by rw [f5, hss])
    obtain ⟨c1, c2⟩ := mantFold_cnt mant S false hm (by rw [hm0]) (by rw [hm0]; simp)
    rw [hfp, hd0, hz0] at c1 c2
    exact ⟨r1.trans c1, r2.trans c2, r3, r4⟩
  rcases hs with rfl | rfl | rfl
  · simp only [List.nil_append]
    cases mant with
    | nil =>
      simp only [List.nil_append]
      cases rest with
      | nil =>
        refine ⟨rfl, rfl, ?_, ?_⟩
        · show false = true ↔ ([] : List Char) = ['!']
          simp
        · show false = true ↔ (([] : List Char) = ['#'] ∨ ([] : List Char).head? = some 'D')
          simp
      | cons c t =>
        have hcc : c = 'E' ∨ c = 'D' ∨ c = '!' ∨ c = '#' := by
          rcases hr with h | ⟨t2, hMt, -⟩ | h | h
          · exact absurd h (by simp)
          · rcases hMt with h | h
            · injection h with h1 _
              exact Or.inl h1
            · injection h with h1 _
              exact Or.inr (Or.inl h1)
          · injection h with h1 _
            exact Or.inr (Or.inr (Or.inl h1))
          · injection h with h1 _
            exact Or.inr (Or.inr (Or.inr h1))
        have hws : c ∉ numWS := by
          rcases hcc with rfl | rfl | rfl | rfl <;> decide
        have hns : ¬(c = '+' ∨ c = '-') := by
          rcases hcc with rfl | rfl | rfl | rfl <;> decide
        rw [sfLoop_nosign_head c t hws hns]
        exact main _ rfl rfl rfl rfl rfl rfl rfl rfl rfl
    | cons c0 mr =>
      have hc0 : isDigitCh c0 = true ∨ c0 = '.' := by
        rw [List.all_cons] at hm
        simpa using (Bool.and_eq_true_iff.mp hm).1
      have hws : c0 ∉ numWS := by
        rcases hc0 with h | h
        · exact (digit_ne h).2.2.2.2.2.2.2.1
        · rw [h]
          decide
      have hns : ¬(c0 = '+' ∨ c0 = '-') := by
        rintro (rfl | rfl)
        · rcases hc0 with h | h
          · exact absurd h (by decide)
          · exact absurd h (by decide)
        · rcases hc0 with h | h
          · exact absurd h (by decide)
          · exact absurd h (by decide)
      rw [List.cons_append, sfLoop_nosign_head c0 (mr ++ rest) hws hns,
        ← List.cons_append]
      exact main _ rfl rfl rfl rfl rfl rfl rfl rfl rfl
  · rw [show (['+'] ++ mant ++ rest) = '+' :: (mant ++ rest) from rfl,
      sfLoop_sign '+' (mant ++ rest) (Or.inl rfl)]
    exact main _ rfl rfl rfl rfl rfl rfl rfl rfl rfl
  · rw [show (['-'] ++ mant ++ rest) = '-' :: (mant ++ rest) from rfl,
      sfLoop_sign '-' (mant ++ rest) (Or.inr rfl)]
    exact main _ rfl rfl rfl rfl rfl rfl rfl rfl rfl

lemma not_mem_mant {x : Char} (hx1 : isDigitCh x = false) (hx2 : x ≠ '.')
    {mant : List Char} (hm : mant.all (fun c => isDigitCh c ∨ c = '.') = true) :
    x ∉ mant := by
  intro hmem
  have hx := List.all_eq_true.mp hm x hmem
  simp only [decide_eq_true_eq] at hx
  rcases hx with h | h
  · rw [hx1] at h
    exact absurd h (by simp)
  · exact hx2 h

lemma restOk_head {c : Char} {t : List Char} (hr : RestOk (c :: t)) :
    c = 'E' ∨ c = 'D' ∨ c = '!' ∨ c = '#' := by
  rcases hr with h | ⟨t2, hMt, -⟩ | h | h
  · exact absurd h (by simp)
  · rcases hMt with h | h
    · injection h with h1 _
      exact Or.inl h1
    · injection h with h1 _
      exact Or.inr (Or.inl h1)
  · injection h with h1 _
    exact Or.inr (Or.inr (Or.inl h1))
  · injection h with h1 _
    exact Or.inr (Or.inr (Or.inr h1))

lemma restOk_mem (rest : List Char) (hr : RestOk rest) :
    ('!' ∈ rest ↔ rest = ['!']) ∧ ('#' ∈ rest ↔ rest = ['#']) ∧
    ('D' ∈ rest ↔ rest.head? = some 'D') := by
  rcases hr with rfl | ⟨t, hMt, ht⟩ | rfl | rfl
  · exact ⟨by simp, by simp, by simp⟩
  · have hnt : ∀ x : Char, isDigitCh x = false → x ≠ '+' → x ≠ '-' → x ∉ t := by
      rcases ht with rfl | ⟨c, u, rfl, hc, hu⟩
      · intro x _ _ _
        simp
      · intro x hx1 hx2 hx3 hmem
        rcases List.mem_cons.mp hmem with rfl | hmem2
        · rcases hc with (rfl | rfl) | hd
          · exact hx2 rfl
          · exact hx3 rfl
          · rw [hx1] at hd
            exact absurd hd (by simp)
        · have := List.all_eq_true.mp hu x hmem2
          rw [hx1] at this
          exact absurd this (by simp)
    rcases hMt with rfl | rfl
    · refine ⟨iff_of_false ?_ ?_, iff_of_false ?_ ?_, iff_of_false ?_ ?_⟩
      · intro hmem
        rcases List.mem_cons.mp hmem with h | h
        · exact absurd h (by decide)
        · exact hnt '!' (by decide) (by decide) (by decide) h
      · intro h
        injection h with h1 _
        exact absurd h1 (by decide)
      · intro hmem
        rcases List.mem_cons.mp hmem with h | h
        · exact absurd h (by decide)
        · exact hnt '#' (by decide) (by decide) (by decide) h
      · intro h
        injection h with h1 _
        exact absurd h1 (by decide)
      · intro hmem
        rcases List.mem_cons.mp hmem with h | h
        · exact absurd h (by decide)
        · exact hnt 'D' (by decide) (by decide) (by decide) h
      · intro h
        simp only [List.head?_cons, Option.some.injEq] at h
        exact absurd h (by decide)
    · refine ⟨iff_of_false ?_ ?_, iff_of_false ?_ ?_, iff_of_true (by simp) (by simp)⟩
      · intro hmem
        rcases List.mem_cons.mp hmem with h | h
        · exact absurd h (by decide)
        · exact hnt '!' (by decide) (by decide) (by decide) h
      · intro h
        injection h with h1 _
        exact absurd h1 (by decide)
      · intro hmem
        rcases List.mem_cons.mp hmem with h | h
        · exact absurd h (by decide)
        · exact hnt '#' (by decide) (by decide) (by decide) h
      · intro h
        injection h with h1 _
        exact absurd h1 (by decide)
  · exact ⟨by simp, by decide, by decide⟩
  · exact ⟨by decide, by simp, by decide⟩

lemma decomp_mem (sgn mant rest : List Char)
    (hs : sgn = [] ∨ sgn = ['+'] ∨ sgn = ['-'])
    (hm : mant.all (fun c => isDigitCh c ∨ c = '.') = true)
    (hr : RestOk rest) :
    ('!' ∈ sgn ++ mant ++ rest ↔ rest = ['!']) ∧
    ('D' ∈ sgn ++ mant ++ rest ↔ rest.head? = some 'D') ∧
    ((sgn ++ mant ++ rest).getLastD '\x00' = '#' ↔ rest = ['#']) := by
  obtain ⟨r1, r2, r3⟩ := restOk_mem rest hr
  have hsgn : ∀ x : Char, x ≠ '+' → x ≠ '-' → x ∉ sgn := by
    rcases hs with rfl | rfl | rfl
    · intro x _ _
      simp
    · intro x hx _ hmem
      exact hx (by simpa using hmem)
    · intro x _ hx hmem
      exact hx (by simpa using hmem)
  refine ⟨?_, ?_, ?_⟩
  · rw [List.mem_append, List.mem_append]
    constructor
    · rintro ((h | h) | h)
      · exact absurd h (hsgn '!' (by decide) (by decide))
      · exact absurd h (not_mem_mant (by decide) (by decide) hm)
      · exact r1.mp h
    · intro h
      exact Or.inr (r1.mpr h)
  · rw [List.mem_append, List.mem_append]
    constructor
    · rintro ((h | h) | h)
      · exact absurd h (hsgn 'D' (by decide) (by decide))
      · exact absurd h (not_mem_mant (by decide) (by decide) hm)
      · exact r3.mp h
    · intro h
      exact Or.inr (r3.mpr h)
  · rcases hrest : rest with _ | ⟨c, t⟩
    · rw [List.append_nil]
      refine iff_of_false ?_ (by simp)
      induction mant using List.reverseRecOn with
      | nil =>
        rcases hs with rfl | rfl | rfl <;> decide
      | append_singleton u c _ih =>
        rw [← List.append_assoc, getLastD_app]
        intro hcq
        have hc := List.all_eq_true.mp hm c (by simp)
        simp only [decide_eq_true_eq] at hc
        rcases hc with h | h
        · rw [hcq] at h
          exact absurd h (by decide)
        · rw [hcq] at h
          exact absurd h (by decide)
    · rw [hrest] at r2
      have hrne : (c :: t : List Char) ≠ [] := by simp
      have hmr : mant ++ c :: t ≠ [] := by simp
      rw [List.append_assoc, getLastD_append_right sgn hmr,
        getLastD_append_right mant hrne]
      constructor
      · intro h
        exact r2.mp (h ▸ getLastD_mem hrne '\x00')
      · intro h
        rw [h]
        rfl

lemma claimSigDigits_decomp (sgn mant rest : List Char)
    (hs : sgn = [] ∨ sgn = ['+'] ∨ sgn = ['-'])
    (hm : mant.all (fun c => isDigitCh c ∨ c = '.') = true)
    (hr : RestOk rest) :
    claimSigDigits (sgn ++ mant ++ rest) =
      (cnt (digitsWithPos mant false) (false, 0, 0)).2.1 -
        (cnt (digitsWithPos mant false) (false, 0, 0)).2.2 := by
  have hq1 : ∀ x ∈ sgn ++ mant,
      (fun c => decide (¬(c = 'E' ∨ c = 'D' ∨ c = '!' ∨ c = '#'))) x = true := by
    intro x hx
    rcases List.mem_append.mp hx with hx | hx
    · rcases hs with rfl | rfl | rfl
      · exact absurd hx (by simp)
      · simp only [List.mem_singleton] at hx
        rw [hx]
        decide
      · simp only [List.mem_singleton] at hx
        rw [hx]
        decide
    · have h := List.all_eq_true.mp hm x hx
      simp only [decide_eq_true_eq] at h
      rcases h with h | h
      · obtain ⟨-, -, -, h4, h5, h6, h7, -, -⟩ := digit_ne h
        simp [h4, h5, h6, h7]
      · rw [h]
        decide
  have htw : (sgn ++ mant ++ rest).takeWhile
      (fun c => ¬(c = 'E' ∨ c = 'D' ∨ c = '!' ∨ c = '#')) = sgn ++ mant := by
    rw [takeWhile_append_all rest hq1]
    rw [show rest.takeWhile
        (fun c => decide (¬(c = 'E' ∨ c = 'D' ∨ c = '!' ∨ c = '#'))) = [] from by
      rcases hrest : rest with _ | ⟨c, t⟩
      · rfl
      · rw [List.takeWhile_cons_of_neg (by
          have := restOk_head (hrest ▸ hr)
          rcases this with rfl | rfl | rfl | rfl <;> decide)]]
    rw [List.append_nil]
  have hdw : digitsWithPos (sgn ++ mant) false = digitsWithPos mant false := by
    rcases hs with rfl | rfl | rfl
    · rfl
    · rw [List.singleton_append, digitsWithPos, if_neg (by decide), if_neg (by decide)]
    · rw [List.singleton_append, digitsWithPos, if_neg (by decide), if_neg (by decide)]
  obtain ⟨s1, s2⟩ := cnt_spec (digitsWithPos mant false)
  simp only [claimSigDigits]
  rw [htw, hdw, ← s1, ← s2]

@[simp] lemma floatFromExp10_isDouble (n : Bool) (m e : ℤ) (d : Bool) :
    (floatFromExp10 n m e d).isDouble = d := rfl

lemma strToFloat_double_iff (sgn mant rest : List Char)
    (hs : sgn = [] ∨ sgn = ['+'] ∨ sgn = ['-'])
    (hm : mant.all (fun c => isDigitCh c ∨ c = '.') = true)
    (hr : RestOk rest) :
    ((strToFloat (sgn ++ mant ++ rest)).isDouble = true ↔
      (¬('!' ∈ sgn ++ mant ++ rest) ∧
        (('D' ∈ sgn ++ mant ++ rest ∨ (sgn ++ mant ++ rest).getLastD '\x00' = '#') ∨
          8 ≤ claimSigDigits (sgn ++ mant ++ rest)))) := by
  obtain ⟨d1, d2, d3, d4⟩ := sfLoop_decomp sgn mant rest hs hm hr
  obtain ⟨m1, m2, m3⟩ := decomp_mem sgn mant rest hs hm hr
  have hcs := claimSigDigits_decomp sgn mant rest hs hm hr
  simp only [strToFloat]
  rw [floatFromExp10_isDouble, hcs, m1, m2, m3, d1, d2]
  rcases hr with rfl | ⟨t, hMt, ht⟩ | rfl | rfl
  · have hsing : (sfLoop (sgn ++ mant ++ []) SFSt.init).isSingle = false :=
      Bool.eq_false_iff.mpr (fun h => by simpa using d3.mp h)
    have hdbl : (sfLoop (sgn ++ mant ++ []) SFSt.init).isDouble = false :=
      Bool.eq_false_iff.mpr (fun h => by simpa using d4.mp h)
    rw [hsing, hdbl]
    by_cases h7 : 7 <
        (cnt (digitsWithPos mant false) (false, 0, 0)).2.1 -
          (cnt (digitsWithPos mant false) (false, 0, 0)).2.2
    · rw [if_pos ⟨h7, by simp⟩]
      exact iff_of_true rfl ⟨by simp, Or.inr (by omega)⟩
    · rw [if_neg (fun hx => h7 hx.1)]
      refine iff_of_false (by simp) ?_
      rintro ⟨-, (h | h) | h⟩
      · simp at h
      · simp at h
      · omega
  · rcases hMt with rfl | rfl
    · have hsing : (sfLoop (sgn ++ mant ++ ('E' :: t)) SFSt.init).isSingle = false :=
        Bool.eq_false_iff.mpr (fun h => by
          have := d3.mp h
          injection this with h1 _
          exact absurd h1 (by decide))
      have hdbl : (sfLoop (sgn ++ mant ++ ('E' :: t)) SFSt.init).isDouble = false :=
        Bool.eq_false_iff.mpr (fun h => by
          rcases d4.mp h with h2 | h2
          · injection h2 with h1 _
            exact absurd h1 (by decide)
          · simp only [List.head?_cons, Option.some.injEq] at h2
            exact absurd h2 (by decide))
      rw [hsing, hdbl]
      by_cases h7 : 7 <
          (cnt (digitsWithPos mant false) (false, 0, 0)).2.1 -
            (cnt (digitsWithPos mant false) (false, 0, 0)).2.2
      · rw [if_pos ⟨h7, by simp⟩]
        refine iff_of_true rfl ⟨?_, Or.inr (by omega)⟩
        intro h
        injection h with h1 _
        exact absurd h1 (by decide)
      · rw [if_neg (fun hx => h7 hx.1)]
        refine iff_of_false (by simp) ?_
        rintro ⟨-, (h | h) | h⟩
        · simp only [List.head?_cons, Option.some.injEq] at h
          exact absurd h (by decide)
        · injection h with h1 _
          exact absurd h1 (by decide)
        · omega
    · have hdbl : (sfLoop (sgn ++ mant ++ ('D' :: t)) SFSt.init).isDouble = true :=
        d4.mpr (Or.inr (by simp))
      rw [hdbl, ite_self]
      refine iff_of_true rfl ⟨?_, Or.inl (Or.inl (by simp))⟩
      intro h
      injection h with h1 _
      exact absurd h1 (by decide)
  · have hsing : (sfLoop (sgn ++ mant ++ ['!']) SFSt.init).isSingle = true :=
      d3.mpr rfl
    have hdbl : (sfLoop (sgn ++ mant ++ ['!']) SFSt.init).isDouble = false :=
      Bool.eq_false_iff.mpr (fun h => by
        rcases d4.mp h with h2 | h2
        · injection h2 with h1 _
          exact absurd h1 (by decide)
        · simp only [List.head?_cons, Option.some.injEq] at h2
          exact absurd h2 (by decide))
    rw [hsing, hdbl, if_neg (fun hx => by simpa using hx.2)]
    exact iff_of_false (by simp) (fun hx => hx.1 rfl)
  · have hdbl : (sfLoop (sgn ++ mant ++ ['#']) SFSt.init).isDouble = true :=
      d4.mpr (Or.inl rfl)
    rw [hdbl, ite_self]
    refine iff_of_true rfl ⟨?_, Or.inl (Or.inr rfl)⟩
    intro h
    injection h with h1 _
    exact absurd h1 (by decide)

lemma emitDec_claimKind (w : List Char) (hexp hpt : Bool)
    (hwf : (wfFrom .m0 w).isSome = true)
    (hpt_iff : hpt = true ↔ '.' ∈ w)
    (hexp_iff : hexp = true ↔ ('E' ∈ w ∨ 'D' ∈ w)) :
    kindOf (emitDec w hexp hpt) = claimKind w := by
  obtain ⟨m, hm⟩ := Option.isSome_iff_exists.mp hwf
  obtain ⟨sgn, mant, rest, hw, hs, hmant, hrest⟩ := wf_m0_decomp w m hm
  subst hw
  simp only [emitDec, claimKind]
  by_cases h1 : (sgn ++ mant ++ rest).length = 1 ∧
      (sgn ++ mant ++ rest).all isDigitCh = true
  · rw [if_pos h1, if_pos h1]
    rfl
  · rw [if_neg h1, if_neg h1]
    by_cases h2 : ¬('.' ∈ sgn ++ mant ++ rest) ∧ ¬('E' ∈ sgn ++ mant ++ rest) ∧
        ¬('D' ∈ sgn ++ mant ++ rest) ∧
        ¬((sgn ++ mant ++ rest).getLastD '\x00' = '!') ∧
        ¬((sgn ++ mant ++ rest).getLastD '\x00' = '#') ∧
        -0x8000 ≤ strToInt (sgn ++ mant ++ rest) ∧
        strToInt (sgn ++ mant ++ rest) ≤ 0x7fff
    · have h2e : ¬(hexp = true ∨ hpt = true ∨
          (sgn ++ mant ++ rest).getLastD '\x00' = '!' ∨
          (sgn ++ mant ++ rest).getLastD '\x00' = '#') ∧
          strToInt (sgn ++ mant ++ rest) ≤ 0x7fff ∧
          -0x8000 ≤ strToInt (sgn ++ mant ++ rest) := by
        refine ⟨?_, h2.2.2.2.2.2.2, h2.2.2.2.2.2.1⟩
        rintro (h | h | h | h)
        · rcases hexp_iff.mp h with h | h
          · exact h2.2.1 h
          · exact h2.2.2.1 h
        · exact h2.1 (hpt_iff.mp h)
        · exact h2.2.2.2.1 h
        · exact h2.2.2.2.2.1 h
      rw [if_pos h2e, if_pos h2]
      by_cases h3 : 0 ≤ strToInt (sgn ++ mant ++ rest) ∧
          strToInt (sgn ++ mant ++ rest) ≤ 0xff
      · rw [if_pos ⟨h3.2, h3.1⟩, if_pos h3]
        rfl
      · rw [if_neg (fun hx => h3 ⟨hx.2, hx.1⟩), if_neg h3]
        rfl
    · have h2e : ¬(¬(hexp = true ∨ hpt = true ∨
          (sgn ++ mant ++ rest).getLastD '\x00' = '!' ∨
          (sgn ++ mant ++ rest).getLastD '\x00' = '#') ∧
          strToInt (sgn ++ mant ++ rest) ≤ 0x7fff ∧
          -0x8000 ≤ strToInt (sgn ++ mant ++ rest)) := by
        intro hx
        exact h2 ⟨fun hc => hx.1 (Or.inr (Or.inl (hpt_iff.mpr hc))),
          fun hc => hx.1 (Or.inl (hexp_iff.mpr (Or.inl hc))),
          fun hc => hx.1 (Or.inl (hexp_iff.mpr (Or.inr hc))),
          fun hc => hx.1 (Or.inr (Or.inr (Or.inl hc))),
          fun hc => hx.1 (Or.inr (Or.inr (Or.inr hc))),
          hx.2.2, hx.2.1⟩
      rw [if_neg h2e, if_neg h2]
      have hiff := strToFloat_double_iff sgn mant rest hs hmant hrest
      by_cases hd : (strToFloat (sgn ++ mant ++ rest)).isDouble = true
      · rw [if_pos hd, if_pos (hiff.mp hd)]
        rfl
      · rw [if_neg hd, if_neg (fun hx => hd (hiff.mpr hx))]
        rfl

/-! ## Theorems settling the claims -/

/-- C1: for two Integer operands whose exact mathematical sum lies outside
the signed 16-bit range, `add` returns a Single holding the exact sum
(e.g. 32767 + 1 gives Single 32768.0), never an Integer wrapped mod 2^16. -/
theorem claim1_integer_add_overflow_promotes_single
    (n m : ℤ) (h1 : -32768 ≤ n) (h2 : n ≤ 32767) (h3 : -32768 ≤ m) (h4 : m ≤ 32767)
    (_hov : 32767 < n + m ∨ n + m < -32768) :
    add (encInt n) (encInt m) = .ok (.vFlt (Flt.fromInt false (n + m))) ∧
      (Flt.fromInt false (n + m)).isDouble = false ∧
      (Flt.fromInt false (n + m)).val = ((n + m : ℤ) : ℚ) := by
  exact ⟨add_encInt n m h1 h2 h3 h4, by simp, by simp⟩

/-- Witness for C1 at 32767 + 1: the result is the Single 32768. -/
theorem claim1_witness :
    add (encInt 32767) (encInt 1) = .ok (.vFlt (Flt.fromInt false 32768)) ∧
      (Flt.fromInt false 32768).isDouble = false ∧
      (Flt.fromInt false 32768).val = ((32768 : ℤ) : ℚ) := by
  have h := claim1_integer_add_overflow_promotes_single 32767 1
    (by norm_num) (by norm_num) (by norm_num) (by norm_num) (by norm_num)
  norm_num at h ⊢
  exact h

/-- C2 counterexample: `mod` on dividend -7 and divisor -3 returns +2, which
is neither zero nor of the dividend's sign, refuting the claim that the
result's sign follows the dividend for all four sign combinations. -/
theorem claim2_counterexample :
    modOp false true (encInt (-7)) (encInt (-3)) = .ok (encInt 2, false) ∧
      ¬((2 : ℤ) = 0 ∨ ((0 : ℤ) < 2 ∧ (0 : ℤ) < -7) ∨ ((2 : ℤ) < 0 ∧ (-7 : ℤ) < 0)) := by
  constructor
  · decide
  · decide

/-- C2 amended: when the dividend is nonnegative or the divisor is positive,
the result of `mod` is zero or has the dividend's sign; when dividend and
divisor are both negative, the code subtracts the divisor from Python's
floor remainder, so the result is strictly positive (or raises Overflow in
the single case where that value is 32768). -/
theorem claim2_amended_mod_sign (dr hs : Bool) (a b : ℤ)
    (ha1 : -32768 ≤ a) (ha2 : a ≤ 32767) (hb1 : -32768 ≤ b) (hb2 : b ≤ 32767)
    (hb : b ≠ 0) :
    (0 ≤ a ∨ 0 < b →
      ∃ r, modOp dr hs (encInt a) (encInt b) = .ok (encInt r, false) ∧
        (r = 0 ∨ (0 < r ∧ 0 < a) ∨ (r < 0 ∧ a < 0))) ∧
    (a < 0 → b < 0 →
      (Int.fmod a b - b ≤ 32767 →
        modOp dr hs (encInt a) (encInt b) = .ok (encInt (Int.fmod a b - b), false) ∧
          0 < Int.fmod a b - b) ∧
      (32767 < Int.fmod a b - b →
        modOp dr hs (encInt a) (encInt b) = .error .overflow)) := by
  rw [modOp_encInt dr hs a b ha1 ha2 hb1 hb2 hb]
  rcases lt_or_gt_of_ne hb with hneg | hpos
  · -- negative divisor
    obtain ⟨hm1, hm2⟩ := fmod_bounds_neg a hneg
    constructor
    · rintro (hA | hB)
      · -- a nonnegative, b negative
        by_cases hz : Int.fmod a b < 0
        · have hcond : (a < 0 ∨ Int.fmod a b < 0) := Or.inr hz
          rw [if_pos hcond]
          refine ⟨Int.fmod a b - b, ?_, ?_⟩
          · rw [intToInteger_ok _ false (by omega) (by simp; omega)]
            rfl
          · have haz : a ≠ 0 := by
              rintro rfl
              rw [Int.zero_fmod] at hz
              omega
            exact Or.inr (Or.inl ⟨by omega, by omega⟩)
        · have h0 : Int.fmod a b = 0 := by omega
          rw [if_neg (by omega)]
          refine ⟨0, ?_, Or.inl rfl⟩
          rw [h0, intToInteger_ok _ false (by omega) (by simp)]
          rfl
      · omega
    · intro hA hB
      have hcond : (a < 0 ∨ Int.fmod a b < 0) := Or.inl hA
      rw [if_pos hcond]
      constructor
      · intro hr
        refine ⟨?_, by omega⟩
        rw [intToInteger_ok _ false (by omega) (by simp; omega)]
        rfl
      · intro hr
        rw [intToInteger_overflow _ hr]
        rfl
  · -- positive divisor
    have hm1 := Int.fmod_nonneg' a hpos
    have hm2 := Int.fmod_lt_of_pos a hpos
    constructor
    · intro _
      by_cases hA : a < 0
      · rw [if_pos (Or.inl hA)]
        refine ⟨Int.fmod a b - b, ?_, Or.inr (Or.inr ⟨by omega, hA⟩)⟩
        rw [intToInteger_ok _ false (by omega) (by simp; omega)]
        rfl
      · rw [if_neg (by omega)]
        refine ⟨Int.fmod a b, ?_, ?_⟩
        · rw [intToInteger_ok _ false (by omega) (by simp; omega)]
          rfl
        · by_cases hz : Int.fmod a b = 0
          · exact Or.inl hz
          · have haz : a ≠ 0 := by
              rintro rfl
              rw [Int.zero_fmod] at hz
              exact hz rfl
            exact Or.inr (Or.inl ⟨by omega, by omega⟩)
    · omega

/-- Witness for C2 at dividend 7, divisor -3 (soft context): the result is
zero or carries the dividend's sign. -/
theorem claim2_witness :
    ∃ r, modOp false true (encInt 7) (encInt (-3)) = .ok (encInt r, false) ∧
      (r = 0 ∨ (0 < r ∧ (0 : ℤ) < 7) ∨ (r < 0 ∧ (7 : ℤ) < 0)) := by
  exact (claim2_amended_mod_sign false true 7 (-3) (by norm_num) (by norm_num)
    (by norm_num) (by norm_num) (by norm_num)).1 (by norm_num)

/-- C3: integer-divide and `mod` with divisor zero: with soft handling active
(no strict-raise demanded and a screen attached) both return the Single
maximum magnitude with the dividend's sign and print a diagnostic; otherwise
both raise Division By Zero.  The two outcomes are exhaustive. -/
theorem claim3_divide_mod_by_zero_policy (dr hs : Bool) (a : ℤ)
    (h1 : -32768 ≤ a) (h2 : a ≤ 32767) :
    ((dr = false ∧ hs = true) →
      divideInt dr hs (encInt a) (encInt 0) =
        .ok (.vFlt ⟨false, decide (a < 0), Flt.singleMaxMag⟩, true) ∧
      modOp dr hs (encInt a) (encInt 0) =
        .ok (.vFlt ⟨false, decide (a < 0), Flt.singleMaxMag⟩, true)) ∧
    (¬(dr = false ∧ hs = true) →
      divideInt dr hs (encInt a) (encInt 0) = .error .divisionByZero ∧
      modOp dr hs (encInt a) (encInt 0) = .error .divisionByZero) := by
  have hdiv : divideInt dr hs (encInt a) (encInt 0) =
      handleExc dr hs (.zeroDivisionError ⟨false, decide (a < 0), Flt.singleMaxMag⟩) := by
    unfold divideInt
    rw [toInt_encInt a h1 h2, toInt_encInt 0 (by norm_num) (by norm_num)]
    simp
  have hmod : modOp dr hs (encInt a) (encInt 0) =
      handleExc dr hs (.zeroDivisionError ⟨false, decide (a < 0), Flt.singleMaxMag⟩) := by
    unfold modOp
    rw [toInt_encInt a h1 h2, toInt_encInt 0 (by norm_num) (by norm_num)]
    simp
  rw [hdiv, hmod]
  constructor
  · rintro ⟨rfl, rfl⟩
    constructor <;> simp [handleExc, excCode, softTypes]
  · intro hcase
    cases dr <;> cases hs
    · constructor <;> simp [handleExc, excCode, softTypes]
    · exact absurd ⟨rfl, rfl⟩ hcase
    · constructor <;> simp [handleExc, excCode, softTypes]
    · constructor <;> simp [handleExc, excCode, softTypes]

/-- Witness for C3 at dividend -5 in both policy settings. -/
theorem claim3_witness :
    divideInt false true (encInt (-5)) (encInt 0) =
      .ok (.vFlt ⟨false, true, Flt.singleMaxMag⟩, true) ∧
    modOp true true (encInt (-5)) (encInt 0) = .error .divisionByZero := by
  have hsoft := (claim3_divide_mod_by_zero_policy false true (-5)
    (by norm_num) (by norm_num)).1 ⟨rfl, rfl⟩
  have hhard := (claim3_divide_mod_by_zero_policy true true (-5)
    (by norm_num) (by norm_num)).2 (by simp)
  refine ⟨?_, hhard.2⟩
  have : (decide ((-5 : ℤ) < 0)) = true := by decide
  rw [hsoft.1, this]

/-- C4 counterexample: `to_integer` with the unsigned flag on the Integer -1
succeeds and returns the operand unchanged, although -1 lies outside
[0, 65535]; the claim that it fails with Overflow there is refuted. -/
theorem claim4_counterexample :
    toInteger (encInt (-1)) true = .ok (encInt (-1)) ∧
      intValue (encInt (-1)) = -1 ∧ ¬((0 : ℤ) ≤ -1) := by
  refine ⟨?_, by decide, by decide⟩
  decide

/-- C4 amended: `to_integer` with the unsigned flag returns Integer operands
unchanged without any range check; a float operand is rounded to the nearest
integer and fails with Overflow exactly when the rounded value lies outside
[-32768, 65535] (negative in-range values are stored as their unsigned
16-bit complement). -/
theorem claim4_amended_to_integer_unsigned :
    (∀ b0 b1 : ℕ, toInteger (.vInt b0 b1) true = .ok (.vInt b0 b1)) ∧
    (∀ f : Flt,
      (-32768 ≤ f.roundToInt → f.roundToInt ≤ 65535 →
        toInteger (.vFlt f) true = .ok (encInt f.roundToInt)) ∧
      (65535 < f.roundToInt ∨ f.roundToInt < -32768 →
        toInteger (.vFlt f) true = .error .overflow)) := by
  constructor
  · intro b0 b1
    rfl
  · intro f
    have hred : toInteger (.vFlt f) true =
        if f.roundToInt > 65535 ∨ f.roundToInt < -32768 then .error .overflow
        else intToInteger f.roundToInt true := rfl
    constructor
    · intro hl hr
      rw [hred, if_neg (by omega)]
      exact intToInteger_ok _ true hl (by simp [hr])
    · intro hc
      rw [hred, if_pos (by omega)]

/-- Witness for C4 on the Single float -5.0: it rounds to -5, is accepted,
and is stored as the unsigned complement 65531. -/
theorem claim4_witness :
    toInteger (.vFlt ⟨false, true, 5⟩) true = .ok (encInt (-5)) := by
  have hr : (Flt.roundToInt ⟨false, true, 5⟩) = -5 := by
    show round (Flt.val ⟨false, true, 5⟩) = -5
    have hv : (Flt.val ⟨false, true, 5⟩) = ((-5 : ℤ) : ℚ) := by
      unfold Flt.val
      norm_num
    rw [hv, round_intCast]
  have h := (claim4_amended_to_integer_unsigned.2 ⟨false, true, 5⟩).1
    (by rw [hr]; norm_num) (by rw [hr]; norm_num)
  rw [hr] at h
  exact h

lemma boolGtStr_iff : ∀ a b : List ℕ, boolGtStr a b = true ↔ claimLexLt b a := by
  intro a
  induction a with
  | nil =>
    intro b
    cases b <;> simp [boolGtStr, claimLexLt]
  | cons x xs ih =>
    intro b
    cases b with
    | nil => simp [boolGtStr, claimLexLt]
    | cons y ys =>
      unfold boolGtStr claimLexLt
      rcases lt_trichotomy x y with h | h | h
      · rw [if_neg (by omega), if_pos h]
        simp
        omega
      · subst h
        rw [if_neg (by omega), if_neg (by omega)]
        rw [ih ys]
        constructor
        · intro hlt
          exact Or.inr ⟨rfl, hlt⟩
        · rintro (hlt | ⟨-, hlt⟩)
          · omega
          · exact hlt
      · rw [if_pos h]
        simp
        omega

lemma boolEqStr_iff : ∀ a b : List ℕ, boolEqStr a b = true ↔ a = b := by
  intro a
  induction a with
  | nil =>
    intro b
    cases b <;> simp [boolEqStr]
  | cons x xs ih =>
    intro b
    cases b with
    | nil => simp [boolEqStr]
    | cons y ys =>
      unfold boolEqStr
      rw [Bool.and_eq_true, ih ys]
      simp

/-- C9: string comparison is lexicographic byte-wise: the greater string is
decided at the first differing byte, a proper prefix compares less than its
extension ("AB" < "ABC" < "AC" on the bytes 65/66/67), and byte-for-byte
equal strings compare equal. -/
theorem claim9_string_comparison_lexicographic :
    (∀ a b : List ℕ, boolGtStr a b = true ↔ claimLexLt b a) ∧
    (∀ a b : List ℕ, boolEqStr a b = true ↔ a = b) ∧
    boolGtStr [65, 66, 67] [65, 66] = true ∧
    boolGtStr [65, 66] [65, 66, 67] = false ∧
    boolGtStr [65, 67] [65, 66, 67] = true ∧
    boolGtStr [65, 66, 67] [65, 67] = false ∧
    boolEqStr [65, 66] [65, 66] = true := by
  exact ⟨boolGtStr_iff, boolEqStr_iff, by decide, by decide, by decide, by decide, by decide⟩

/-- C10: for any two Integer operands, `add` and `subtract` always return a
Single-tagged value, even when the exact result fits the 16-bit range. -/
theorem claim10_integer_add_subtract_returns_single
    (n m : ℤ) (h1 : -32768 ≤ n) (h2 : n ≤ 32767) (h3 : -32768 ≤ m) (h4 : m ≤ 32767) :
    (∃ f, add (encInt n) (encInt m) = .ok (.vFlt f) ∧ f.isDouble = false) ∧
    (∃ g, subtract (encInt n) (encInt m) = .ok (.vFlt g) ∧ g.isDouble = false) := by
  refine ⟨⟨Flt.fromInt false (n + m), add_encInt n m h1 h2 h3 h4, by simp⟩, ?_⟩
  unfold subtract
  rw [negate_encInt m h3 h4]
  by_cases hm : -m = 32768
  · rw [if_pos hm, exc_bind_ok, add_int_single n h1 h2 (Flt.fromInt false (-m)) (by simp)]
    exact ⟨_, rfl, by simp [Flt.iadd, Flt.ofVal]⟩
  · rw [if_neg hm, intToInteger_ok (-m) false (by omega) (by simp; omega), exc_bind_ok,
      add_encInt n (-m) h1 h2 (by omega) (by omega)]
    exact ⟨_, rfl, by simp⟩

/-- C7: `format_number` with a two-position template, no decimals and no
flags renders 7 as " 7" and 123 as "%123"; in general, whenever the rendered
text exceeds the template width the full text is returned behind the
overflow escape `%` (never truncated), and otherwise it is left-padded with
the filler character to exactly the template width. -/
theorem claim7_format_number_width :
    formatNumber ⟨false, false, 7⟩ ['#', '#'] 2 0 = .ok [' ', '7'] ∧
    formatNumber ⟨false, false, 123⟩ ['#', '#'] 2 0 = .ok ['%', '1', '2', '3'] ∧
    (∀ (f : Flt) (tokens : List Char) (db dec : ℕ), db + dec ≤ 24 → tokens ≠ [] →
      ∃ core,
        (tokens.length < core.length ∧
          formatNumber f tokens db dec = .ok ('%' :: core)) ∨
        (core.length ≤ tokens.length ∧
          formatNumber f tokens db dec =
            .ok (List.replicate (tokens.length - core.length)
              (if '*' ∈ tokens then '*' else ' ') ++ core) ∧
          (List.replicate (tokens.length - core.length)
              (if '*' ∈ tokens then '*' else ' ') ++ core).length = tokens.length)) := by
  refine ⟨?_, ?_, ?_⟩
  · simp only [formatNumber]
    rw [if_neg (by norm_num), formatCore_7]
    simp
  · simp only [formatNumber]
    rw [if_neg (by norm_num), formatCore_123]
    simp
  · intro f tokens db dec hbudget _htok
    refine ⟨formatCore f tokens db dec, ?_⟩
    simp only [formatNumber]
    rw [if_neg (by omega)]
    by_cases h : (formatCore f tokens db dec).length > tokens.length
    · exact Or.inl ⟨h, by rw [if_pos h]⟩
    · refine Or.inr ⟨by omega, by rw [if_neg h], ?_⟩
      rw [List.length_append, List.length_replicate]
      omega

/-- Witness for C7's general clause at value 0, template "#". -/
theorem claim7_witness :
    ∃ core,
      ((['#'] : List Char).length < core.length ∧
        formatNumber ⟨false, false, 0⟩ ['#'] 1 0 = .ok ('%' :: core)) ∨
      (core.length ≤ (['#'] : List Char).length ∧
        formatNumber ⟨false, false, 0⟩ ['#'] 1 0 =
          .ok (List.replicate ((['#'] : List Char).length - core.length)
            (if '*' ∈ (['#'] : List Char) then '*' else ' ') ++ core) ∧
        (List.replicate ((['#'] : List Char).length - core.length)
            (if '*' ∈ (['#'] : List Char) then '*' else ' ') ++ core).length =
          (['#'] : List Char).length) :=
  claim7_format_number_width.2.2 ⟨false, false, 0⟩ ['#'] 1 0 (by norm_num) (by simp)

/-- C8 counterexample: `format_number` with 13 digits before the point and 12
decimals raises the plain Illegal Function Call code — the very code the
math-fault handler assigns to domain errors — not a distinct
Formatted-Output-Range fault; no such distinct code exists in the source. -/
theorem claim8_counterexample :
    formatNumber ⟨false, false, 1⟩ ['#', '#'] 13 12 = .error .ifc ∧
      excCode .valueError = .ifc := by
  constructor
  · simp only [formatNumber]
    rw [if_pos (by norm_num)]
  · rfl

/-- C8 amended: `format_number` fails, before any rendering, with Illegal
Function Call (the same error code as domain errors; the taxonomy has no
distinct formatted-output entry) whenever digits-before-point plus decimals
exceeds 24; for budgets of 24 or less it succeeds. -/
theorem claim8_amended_format_range_check (f : Flt) (tokens : List Char) (db dec : ℕ) :
    (24 < db + dec → formatNumber f tokens db dec = .error .ifc) ∧
    (db + dec ≤ 24 → tokens ≠ [] → ∃ s, formatNumber f tokens db dec = .ok s) := by
  constructor
  · intro h
    simp only [formatNumber]
    rw [if_pos (by omega)]
  · intro h _ht
    simp only [formatNumber]
    rw [if_neg (by omega)]
    split
    · exact ⟨_, rfl⟩
    · exact ⟨_, rfl⟩

/-- Witness for C8 at budgets 25 (fails with IFC) and 1 (succeeds). -/
theorem claim8_witness :
    formatNumber ⟨false, false, 1⟩ ['#'] 25 0 = .error .ifc ∧
      ∃ s, formatNumber ⟨false, false, 1⟩ ['#'] 1 0 = .ok s :=
  ⟨(claim8_amended_format_range_check ⟨false, false, 1⟩ ['#'] 25 0).1 (by norm_num),
   (claim8_amended_format_range_check ⟨false, false, 1⟩ ['#'] 1 0).2 (by norm_num) (by simp)⟩

/-- C5: for every input handed to `_tokenise_dec`, the kind of the emitted
token agrees with the claim's textual classification of the accumulated
literal: a bare single digit is compact; an integral literal with no point,
exponent marker or type suffix whose value fits [-32768, 32767] is one byte
in [0, 255] and a two-byte integer otherwise; every other literal is a
float, Double exactly when a D exponent or # suffix (without a ! override)
was present or at least eight significant digits were supplied, trailing
zeros right after the decimal point not counting; in particular "1E5"
tokenizes to Single 100000 and "1D5" to Double 100000. -/
theorem claim5_token_kind_selection :
    (∀ input : List Char, kindOf (tokeniseDec input) = claimKind (decWord input)) ∧
    tokeniseDec ['1', 'E', '5'] = .singleTok ⟨false, false, 100000⟩ ∧
    tokeniseDec ['1', 'D', '5'] = .doubleTok ⟨true, false, 100000⟩ := by
  refine ⟨?_, ?_, ?_⟩
  · intro input
    obtain ⟨hwf, hpt_iff, hexp_iff⟩ :=
      accLoop_inv input ⟨[], false, false, false⟩ ⟨.m0, by unfold InvMode; decide⟩
    simp only [tokeniseDec, decWord]
    by_cases hk : (accLoop input ⟨[], false, false, false⟩).kill = true
    · rw [hk, finishWord_kill]
      rw [show emitDec ['0'] (accLoop input ⟨[], false, false, false⟩).hexp
          (accLoop input ⟨[], false, false, false⟩).hpt =
          NumTok.compact (0x11 + (strToInt ['0']).toNat) from by
        simp only [emitDec]
        rw [if_pos (by decide)]]
      rw [show claimKind ['0'] = TokKind.compactK from by
        simp only [claimKind]
        rw [if_pos (by decide)]]
      rfl
    · rw [Bool.eq_false_iff.mpr hk, finishWord_nokill]
      refine emitDec_claimKind _ _ _ hwf ?_ ?_
      · exact hpt_iff.trans (mem_strip (by decide) _).symm
      · exact hexp_iff.trans
          (or_congr (mem_strip (by decide) _).symm (mem_strip (by decide) _).symm)
  · have hacc : accLoop ['1', 'E', '5'] ⟨[], false, false, false⟩ =
        ⟨['1', 'E', '5'], true, false, false⟩ := by decide
    simp only [tokeniseDec]
    rw [hacc]
    show emitDec (finishWord ['1', 'E', '5'] false) true false = _
    rw [show finishWord ['1', 'E', '5'] false = ['1', 'E', '5'] from by decide]
    simp only [emitDec]
    rw [if_neg (by decide), if_neg (by decide)]
    have hsf : sfLoop ['1', 'E', '5'] SFSt.init =
        ⟨true, false, true, true, false, false, 0, 5, 1, 1, 0, false, false⟩ := by decide
    have hval : strToFloat ['1', 'E', '5'] = ⟨false, false, 100000⟩ := by
      simp only [strToFloat, hsf]
      simp only [floatFromExp10]
      norm_num
      rw [show Int.toNat 5 = 5 from rfl]
      norm_num
    rw [hval]
    rw [if_neg (by decide)]
  · have hacc : accLoop ['1', 'D', '5'] ⟨[], false, false, false⟩ =
        ⟨['1', 'D', '5'], true, false, false⟩ := by decide
    simp only [tokeniseDec]
    rw [hacc]
    show emitDec (finishWord ['1', 'D', '5'] false) true false = _
    rw [show finishWord ['1', 'D', '5'] false = ['1', 'D', '5'] from by decide]
    simp only [emitDec]
    rw [if_neg (by decide), if_neg (by decide)]
    have hsf : sfLoop ['1', 'D', '5'] SFSt.init =
        ⟨true, false, true, true, false, false, 0, 5, 1, 1, 0, true, false⟩ := by decide
    have hval : strToFloat ['1', 'D', '5'] = ⟨true, false, 100000⟩ := by
      simp only [strToFloat, hsf]
      simp only [floatFromExp10]
      norm_num
      rw [show Int.toNat 5 = 5 from rfl]
      norm_num
    rw [hval]
    rw [if_pos (by decide)]

/-- Witness for C10 at 5 - 3 and 5 + 3: both results are Singles. -/
theorem claim10_witness :
    (∃ f, add (encInt 5) (encInt 3) = .ok (.vFlt f) ∧ f.isDouble = false) ∧
    (∃ g, subtract (encInt 5) (encInt 3) = .ok (.vFlt g) ∧ g.isDouble = false) :=
  claim10_integer_add_subtract_returns_single 5 3
    (by norm_num) (by norm_num) (by norm_num) (by norm_num)

end PCBasic
